import Mathlib

/-!
Verification of the crawl-and-index pipeline (crawl4ai-runner service).

Shallow embedding of the Python sources under
`src/services/crawl4ai-runner/app/`:

* `services/progress_mapper.py`      — phased progress mapping
* `storage/metadata_repository.py`   — deterministic chunk ids
* `services/crawling_service.py`     — embedding-router strategies
* `storage/embedding_monster_client.py` — client-side batching
* `chunking/text_splitter.py`        — recursive splitter with overlap
* `chunking/markdown_code_extractor.py` — fenced-block extraction
* `chunking/smart_chunker.py`        — chunk orchestration / routing
* `chunking/code_detector.py`        — code/text classification
* `strategies/recursive.py`          — BFS crawl with page cap

Python strings are modelled as `List Char` (one element per code point,
matching Python `len`/slicing).  Python floats that only ever carry exact
dyadic/decimal literals on the verified paths are modelled as `ℚ`.
Python ints are modelled as `Int` (or `Nat` where the source value is
provably non-negative).  External HTTP services are modelled as explicit
function parameters ("oracles"); each call site is tagged with a call
number so that distinct calls may behave differently.
-/

/-! # Progress mapper (`services/progress_mapper.py`) -/

/-- `ProgressMapper.PHASE_RANGES`: the phase → (start%, end%) table. -/
def PHASE_RANGES : List (String × (Int × Int)) :=
  [("initializing", (0, 5)),
   ("discovery", (5, 15)),
   ("crawling", (15, 60)),
   ("chunking", (60, 70)),
   ("summarizing", (70, 80)),
   ("embedding", (80, 92)),
   ("storing", (92, 98)),
   ("completed", (98, 100)),
   ("cancelled", (0, 100)),
   ("failed", (0, 100))]

/-- Mutable state of a `ProgressMapper` instance:
`_last_overall_progress` and `_current_phase` (set in `__init__`). -/
structure ProgressMapper where
  last_overall_progress : Int
  current_phase : String
deriving Repr, DecidableEq

/-- `ProgressMapper.__init__`. -/
def ProgressMapper.init : ProgressMapper :=
  { last_overall_progress := 0, current_phase := "initializing" }

/-- `self.PHASE_RANGES.get(phase)` (`dict.get` returning `None` when the
key is absent; every value in the table is a truthy pair). -/
def phaseRangeOf (phase : String) : Option (Int × Int) :=
  PHASE_RANGES.lookup phase

/-- `ProgressMapper.map_progress`, returning the overall progress value
together with the updated mapper state.

`int((phase_progress / 100) * range_size)` is modelled as
`(p * range_size) / 100`: after clamping, `p ∈ [0,100]` and every
`range_size` in the table lies in `[0,100]`, and for those operands the
double-rounded float computation truncates to exactly the same integer
as exact rational arithmetic (both operands non-negative, the exact
product `p·range_size/100` is either an exact small integer — which the
two correctly-rounded float steps reproduce exactly — or is at distance
≥ 1/100 from every integer, far above the ≤ 3·2⁻⁴⁶ float error). -/
def ProgressMapper.map_progress (st : ProgressMapper) (phase : String)
    (phase_progress : Int) (force_value : Option Int := none) :
    Int × ProgressMapper :=
  match force_value with
  | some fv =>
      let overall := max fv st.last_overall_progress
      (overall, { last_overall_progress := overall, current_phase := phase })
  | none =>
      match phaseRangeOf phase with
      | none => (st.last_overall_progress, st)
      | some (start, «end») =>
          let p := max 0 (min 100 phase_progress)
          let range_size := «end» - start
          let overall := start + (p * range_size) / 100
          let overall := max overall st.last_overall_progress
          (overall, { last_overall_progress := overall, current_phase := phase })

/-- One job's sequence of `map_progress` calls, threading the mapper
state; returns the list of emitted overall-progress values. -/
def ProgressMapper.runCalls (st : ProgressMapper) :
    List (String × Int × Option Int) → List Int
  | [] => []
  | (phase, p, fv) :: rest =>
      let r := st.map_progress phase p fv
      r.1 :: ProgressMapper.runCalls r.2 rest

/-- Every branch of `map_progress` returns a value that is at least the
stored previous value, and (except the unknown-phase branch, which
leaves the state untouched and returns exactly the stored value) stores
the returned value. -/
lemma ProgressMapper.map_progress_last (st : ProgressMapper) (phase : String)
    (p : Int) (fv : Option Int) :
    st.last_overall_progress ≤ (st.map_progress phase p fv).1 ∧
      (st.map_progress phase p fv).2.last_overall_progress =
        (st.map_progress phase p fv).1 := by
  unfold ProgressMapper.map_progress
  match fv with
  | some v => simp [le_max_right]
  | none =>
      match h : phaseRangeOf phase with
      | none => simp [h]
      | some (a, b) => simp [h, le_max_right]

/-- Outputs of consecutive calls are pairwise non-decreasing. -/
lemma ProgressMapper.runCalls_chain (st : ProgressMapper)
    (calls : List (String × Int × Option Int)) :
    List.Chain' (· ≤ ·) (ProgressMapper.runCalls st calls) ∧
      ∀ v ∈ ProgressMapper.runCalls st calls, st.last_overall_progress ≤ v := by
  induction calls generalizing st with
  | nil => simp [ProgressMapper.runCalls]
  | cons c rest ih =>
      obtain ⟨phase, p, fv⟩ := c
      have hstep := ProgressMapper.map_progress_last st phase p fv
      have ihr := ih (st.map_progress phase p fv).2
      constructor
      · rw [ProgressMapper.runCalls]
        apply List.chain'_cons'.mpr
        refine ⟨?_, ihr.1⟩
        intro y hy
        have := ihr.2 y (by
          cases hl : ProgressMapper.runCalls (st.map_progress phase p fv).2 rest with
          | nil => simp [hl] at hy
          | cons a l => simp [hl] at hy ⊢; simp [hy])
        omega
      · intro v hv
        rw [ProgressMapper.runCalls] at hv
        rcases List.mem_cons.mp hv with h | h
        · omega
        · have := ihr.2 v h
          omega

/-- C2.  Within one job, the values emitted by successive
`ProgressMapper.map_progress` calls are monotonically non-decreasing;
and for a phase present in `PHASE_RANGES` with no `force_value`, the
returned value is exactly
`max previous (start + clamp(p,0,100) * (end - start) / 100)`. -/
theorem progress_mapper_monotone_and_formula
    (calls : List (String × Int × Option Int))
    (st : ProgressMapper) (phase : String) (p : Int) (a b : Int)
    (h : phaseRangeOf phase = some (a, b)) :
    List.Chain' (· ≤ ·) (ProgressMapper.runCalls ProgressMapper.init calls) ∧
      (st.map_progress phase p none).1 =
        max st.last_overall_progress
          (a + (max 0 (min 100 p) * (b - a)) / 100) := by
  refine ⟨(ProgressMapper.runCalls_chain ProgressMapper.init calls).1, ?_⟩
  unfold ProgressMapper.map_progress
  simp [h, max_comm]

/-- Witness for C2 at a concrete call trace and a concrete formula
instance: phase `"embedding"` at 50% from a state previously at 40
maps to `max 40 (80 + 50*12/100) = 86`. -/
theorem progress_mapper_monotone_and_formula_witness :
    phaseRangeOf "embedding" = some (80, 92) ∧
      (List.Chain' (· ≤ ·)
          (ProgressMapper.runCalls ProgressMapper.init
            [("crawling", 50, none), ("crawling", 20, none),
             ("unknownphase", 90, none), ("completed", 0, some 99)]) ∧
        ((ProgressMapper.mk 40 "embedding").map_progress "embedding" 50 none).1 =
          max 40 (80 + (max 0 (min 100 50) * (92 - 80)) / 100)) :=
  ⟨by decide,
   progress_mapper_monotone_and_formula
     [("crawling", 50, none), ("crawling", 20, none),
      ("unknownphase", 90, none), ("completed", 0, some 99)]
     (ProgressMapper.mk 40 "embedding") "embedding" 50 80 92 (by decide)⟩

/-! # Deterministic chunk ids (`storage/metadata_repository.py`)

`_stable_chunk_id` calls two Python-stdlib primitives —
`hashlib.sha256(...).hexdigest()` and `uuid.uuid5(uuid.NAMESPACE_URL, seed)`
— which are outside this repository; they are modelled as explicit
function parameters (pure functions, which captures that both are
deterministic across calls and runs). -/

/-- The fields of `chunking/smart_chunker.py`'s `Chunk` dataclass. -/
structure Chunk where
  text : List Char
  is_code : Bool
  language : String
  start_char : Nat
  end_char : Nat
  chunk_index : Nat
  confidence : ℚ
  source_path : String
  model_hint : String
deriving Repr, DecidableEq

/-- `CanonicalMetadataStore._stable_chunk_id`:
`uuid5(NAMESPACE_URL, f"{web_page_id}:{chunk.chunk_index}:{sha256hex(chunk.text)}")`.
`sha256hex` stands for `hashlib.sha256(text.encode()).hexdigest()` and
`uuid5 ns seed` for `uuid.uuid5(ns, seed)`; `NAMESPACE_URL` is passed to
`uuid5` as its namespace argument.  UUIDs are represented by their
string form. -/
def stable_chunk_id (sha256hex : List Char → String)
    (uuid5 : String → String → String) (NAMESPACE_URL : String)
    (web_page_id : String) (chunk : Chunk) : String :=
  uuid5 NAMESPACE_URL
    (web_page_id ++ ":" ++ toString chunk.chunk_index ++ ":" ++ sha256hex chunk.text)

/-- C3.  The stored chunk id depends only on the triple
`(web_page_id, chunk_index, text)` — two chunks agreeing on index and
text receive the same id whatever their other fields, so the id is
identical across calls and runs — and it is exactly
`uuid5(NAMESPACE_URL, "<web_page_id>:<chunk_index>:<sha256-hex(text)>")`. -/
theorem stable_chunk_id_deterministic
    (sha256hex : List Char → String) (uuid5 : String → String → String)
    (NAMESPACE_URL web_page_id : String) (c₁ c₂ : Chunk)
    (htext : c₁.text = c₂.text) (hidx : c₁.chunk_index = c₂.chunk_index) :
    stable_chunk_id sha256hex uuid5 NAMESPACE_URL web_page_id c₁ =
        stable_chunk_id sha256hex uuid5 NAMESPACE_URL web_page_id c₂ ∧
      stable_chunk_id sha256hex uuid5 NAMESPACE_URL web_page_id c₁ =
        uuid5 NAMESPACE_URL
          (web_page_id ++ ":" ++ toString c₁.chunk_index ++ ":"
            ++ sha256hex c₁.text) := by
  unfold stable_chunk_id
  rw [htext, hidx]
  exact ⟨rfl, rfl⟩

/-- Witness for C3: two chunks with the same `(index, text)` but
different positions, languages and hints, under concrete stand-ins for
the two hash primitives. -/
theorem stable_chunk_id_deterministic_witness :
    stable_chunk_id (fun t => String.mk t) (fun ns s => ns ++ "/" ++ s) "ns" "page"
        (Chunk.mk "hello".toList true "python" 0 5 3 1 "a.py" "coderank") =
      stable_chunk_id (fun t => String.mk t) (fun ns s => ns ++ "/" ++ s) "ns" "page"
        (Chunk.mk "hello".toList false "markdown" 7 12 3 0 "b.md" "gte") :=
  (stable_chunk_id_deterministic (fun t => String.mk t)
    (fun ns s => ns ++ "/" ++ s) "ns" "page"
    (Chunk.mk "hello".toList true "python" 0 5 3 1 "a.py" "coderank")
    (Chunk.mk "hello".toList false "markdown" 7 12 3 0 "b.md" "gte")
    rfl rfl).1

/-! # Embedding client (`storage/embedding_monster_client.py`) -/

/-- An embedding vector (`List[float]`). -/
abbrev Vec := List ℚ

/-- `EmbeddingMonsterClient.batch_size` (constructor default `32`; the
crawling service instantiates `EmbeddingMonsterClient()` with no
arguments). -/
def client_batch_size : Nat := 32

/-- One `_request_embeddings` HTTP call: the request either yields a
vector list or raises (after its internal retries).  The `Nat` tags the
call number within one `embed_batch` invocation, so distinct requests
may behave differently. -/
abbrev RequestOracle := Nat → List (List Char) → Except Unit (List Vec)

/-- The `for i in range(0, len(texts), self.batch_size)` loop of
`EmbeddingMonsterClient.embed_batch`, accumulating `all_embeddings`.
`fuel` is an upper bound on the number of iterations (each iteration
consumes `batch_size = 32 ≥ 1` texts, so `texts.length` suffices);
an exception from a request propagates out of the loop. -/
def embedBatchLoop (request : RequestOracle) :
    Nat → Nat → List (List Char) → Except Unit (List Vec)
  | _, _, [] => .ok []
  | 0, _, _ :: _ => .ok []
  | fuel + 1, callNo, texts@(_ :: _) =>
      match request callNo (texts.take client_batch_size) with
      | .error e => .error e
      | .ok embeddings =>
          match embedBatchLoop request fuel (callNo + 1)
              (texts.drop client_batch_size) with
          | .error e => .error e
          | .ok rest => .ok (embeddings ++ rest)

/-- `EmbeddingMonsterClient.embed_batch`: empty input short-circuits to
`[]`; otherwise the texts are processed in chunks of `batch_size` and
the per-request results concatenated. -/
def embed_batch (request : RequestOracle) (texts : List (List Char)) :
    Except Unit (List Vec) :=
  if texts.isEmpty then .ok []
  else embedBatchLoop request texts.length 0 texts

/-- Per-text service contract: a successful request returns exactly one
vector per input text, produced by a fixed per-text embedding function
`f` (the service is deterministic per text, as the spec's external
interface `POST /embed {inputs[], model}` states). -/
def RequestContract (request : RequestOracle) (f : List Char → Vec) : Prop :=
  ∀ n ts vs, request n ts = .ok vs → vs = ts.map f

lemma embedBatchLoop_contract (request : RequestOracle) (f : List Char → Vec)
    (hreq : RequestContract request f) :
    ∀ fuel callNo texts vs, texts.length ≤ fuel →
      embedBatchLoop request fuel callNo texts = .ok vs → vs = texts.map f := by
  intro fuel
  induction fuel with
  | zero =>
      intro callNo texts vs hlen h
      match texts with
      | [] => simpa [embedBatchLoop] using h
      | t :: ts => simp at hlen
  | succ n ih =>
      intro callNo texts vs hlen h
      match texts with
      | [] => simpa [embedBatchLoop] using h
      | t :: ts =>
          rw [embedBatchLoop] at h
          match hr : request callNo ((t :: ts).take client_batch_size) with
          | .error e => rw [hr] at h; exact absurd h (by simp)
          | .ok embs =>
              rw [hr] at h
              match hrec : embedBatchLoop request n (callNo + 1)
                  ((t :: ts).drop client_batch_size) with
              | .error e => rw [hrec] at h; exact absurd h (by simp)
              | .ok rest =>
                  rw [hrec] at h
                  have h1 := hreq callNo _ _ hr
                  have hdroplen : ((t :: ts).drop client_batch_size).length ≤ n := by
                    simp only [List.length_drop]
                    have : (t :: ts).length = ts.length + 1 := by simp
                    simp [client_batch_size] at *
                    omega
                  have h2 := ih (callNo + 1) _ _ hdroplen hrec
                  simp only [Except.ok.injEq] at h
                  rw [← h, h1, h2, ← List.map_append, List.take_append_drop]

/-- If every HTTP request obeys the per-text contract, so does
`embed_batch` as a whole. -/
lemma embed_batch_contract (request : RequestOracle) (f : List Char → Vec)
    (hreq : RequestContract request f) (texts : List (List Char))
    (vs : List Vec) (h : embed_batch request texts = .ok vs) :
    vs = texts.map f := by
  unfold embed_batch at h
  by_cases he : texts.isEmpty
  · rw [if_pos he] at h
    simp only [Except.ok.injEq] at h
    rw [List.isEmpty_iff] at he
    simp [he, ← h]
  · rw [if_neg he] at h
    exact embedBatchLoop_contract request f hreq texts.length 0 texts vs le_rfl h

/-! # Embedding router (`services/crawling_service.py`)

The three strategies `_embed_parallel_unified`, `_embed_single_model`
and `_embed_sequential`, plus the router `_embed_chunks`.  Each
`embedding_client.embed_batch(texts, model)` call site is modelled as
one invocation of a client oracle `client n model texts`, where `n`
tags the call (the round number in the parallel strategy; call 1 /
call 2 in the sequential strategy; call 1 in the single-model path), so
that distinct calls may independently fail.  Progress-state updates,
logging and metrics are I/O-free bookkeeping that does not touch the
`embeddings` list and is omitted.  `embeddings = [None] * len(chunks)`
is modelled as `List (Option Vec)`; Python's in-place
`embeddings[idx] = v` (always in bounds here, `idx` coming from
`enumerate(chunks)`) is `List.set`. -/

/-- One `embed_batch` call of the shared client. -/
abbrev ClientOracle := Nat → String → List (List Char) → Except Unit (List Vec)

/-- Client-level contract, inherited from `embed_batch_contract`:
a successful call returns one vector per text, `f model text`. -/
def ClientContract (client : ClientOracle) (f : String → List Char → Vec) : Prop :=
  ∀ n m ts vs, client n m ts = .ok vs → vs = ts.map (f m)

/-- `[0.0] * 768`, the fallback vector for a failed batch. -/
def zeroVec : Vec := List.replicate 768 0

/-- One round of `_embed_parallel_unified`'s `while` loop applied to a
model's batch: on exception fill the batch's positions with zero
vectors, on success splice the returned vectors back to their original
positions (`zip(batch, result)` truncates to the shorter list, as in
Python). -/
def spliceRound (emb : List (Option Vec)) (batch : List (Nat × Chunk))
    (result : Except Unit (List Vec)) : List (Option Vec) :=
  match result with
  | .error _ => batch.foldl (fun a p => a.set p.1 (some zeroVec)) emb
  | .ok vs => (batch.zip vs).foldl (fun a pe => a.set pe.1.1 (some pe.2)) emb

/-- The `while gte_queue or coderank_queue` loop of
`_embed_parallel_unified`.  Each round pops up to `batch_size` items
from each non-empty queue, submits both batches (round number
`round_num + 1`), and splices results or zero-fills.  `fuel` bounds the
number of rounds (each round consumes at least one queued item, so the
total queue length suffices).  In this model the only failures are the
per-batch request exceptions, which `asyncio.gather(...,
return_exceptions=True)` converts into values, so the loop's outer
`except` branch (a non-request failure aborting with zero-fill) is
unreachable and the loop always drains both queues. -/
def embedRoundsLoop (client : ClientOracle) :
    Nat → List (Nat × Chunk) → List (Nat × Chunk) → Nat → List (Option Vec) →
    List (Option Vec)
  | 0, _, _, _, emb => emb
  | fuel + 1, gte_queue, coderank_queue, round_num, emb =>
      if gte_queue.isEmpty && coderank_queue.isEmpty then emb
      else
        let round := round_num + 1
        let gte_batch := gte_queue.take client_batch_size
        let coderank_batch := coderank_queue.take client_batch_size
        let emb1 :=
          if gte_queue.isEmpty then emb
          else spliceRound emb gte_batch
            (client round "gte" (gte_batch.map (fun p => p.2.text)))
        let emb2 :=
          if coderank_queue.isEmpty then emb1
          else spliceRound emb1 coderank_batch
            (client round "coderank" (coderank_batch.map (fun p => p.2.text)))
        embedRoundsLoop client fuel (gte_queue.drop client_batch_size)
          (coderank_queue.drop client_batch_size) round emb2

/-- `_embed_parallel_unified`: split `enumerate(chunks)` into the two
per-model FIFO queues, then run coordinated rounds. -/
def embed_parallel_unified (client : ClientOracle) (chunks : List Chunk) :
    List (Option Vec) :=
  let gte_queue := chunks.enum.filter (fun p => p.2.model_hint == "gte")
  let coderank_queue := chunks.enum.filter (fun p => p.2.model_hint == "coderank")
  embedRoundsLoop client (chunks.length + 1) gte_queue coderank_queue 0
    (List.replicate chunks.length none)

/-- `_embed_single_model`: one `embed_batch` call with all texts, using
`chunks[0].model_hint` (or `"gte"` for an empty list).  The Python
function returns the client's `List[List[float]]` directly; it is
wrapped in `some` here only to give all three strategies one result
type. -/
def embed_single_model (client : ClientOracle) (chunks : List Chunk) :
    Except Unit (List (Option Vec)) :=
  let model := match chunks with | [] => "gte" | c :: _ => c.model_hint
  (client 1 model (chunks.map (fun c => c.text))).map (fun vs => vs.map some)

/-- `_embed_sequential`: all GTE chunks in one call, then all CodeRank
chunks in a second call, splicing each result back to the original
positions; an exception from either call propagates (this strategy has
no zero-vector fallback). -/
def embed_sequential (client : ClientOracle) (chunks : List Chunk) :
    Except Unit (List (Option Vec)) :=
  let gte_chunks := chunks.enum.filter (fun p => p.2.model_hint == "gte")
  let coderank_chunks := chunks.enum.filter (fun p => p.2.model_hint == "coderank")
  let embeddings : List (Option Vec) := List.replicate chunks.length none
  (if gte_chunks.isEmpty then .ok embeddings
   else (client 1 "gte" (gte_chunks.map (fun p => p.2.text))).map
     (fun vs => (gte_chunks.zip vs).foldl
       (fun a pe => a.set pe.1.1 (some pe.2)) embeddings)).bind
    (fun emb1 =>
      if coderank_chunks.isEmpty then .ok emb1
      else (client 2 "coderank" (coderank_chunks.map (fun p => p.2.text))).map
        (fun vs => (coderank_chunks.zip vs).foldl
          (fun a pe => a.set pe.1.1 (some pe.2)) emb1))

/-- `_embed_chunks`: strategy selection by per-model chunk counts and
the `ENABLE_PARALLEL_EMBEDDING` flag. -/
def embed_chunks (ENABLE_PARALLEL_EMBEDDING : Bool) (client : ClientOracle)
    (chunks : List Chunk) : Except Unit (List (Option Vec)) :=
  let gte_count := (chunks.filter (fun c => c.model_hint == "gte")).length
  let coderank_count := (chunks.filter (fun c => c.model_hint == "coderank")).length
  if gte_count = 0 ∨ coderank_count = 0 then
    embed_single_model client chunks
  else if ENABLE_PARALLEL_EMBEDDING then
    .ok (embed_parallel_unified client chunks)
  else
    embed_sequential client chunks

/-! ## Properties of the splice/fold operations -/

lemma foldl_set_length (l : List (Nat × Chunk)) (g : Nat × Chunk → Option Vec) :
    ∀ emb : List (Option Vec),
      (l.foldl (fun a p => a.set p.1 (g p)) emb).length = emb.length := by
  induction l with
  | nil => intro emb; rfl
  | cons x xs ih => intro emb; rw [List.foldl_cons, ih]; simp

lemma foldl_set_get_ne (l : List (Nat × Chunk)) (g : Nat × Chunk → Option Vec)
    (j : Nat) (hj : ∀ p ∈ l, p.1 ≠ j) :
    ∀ emb : List (Option Vec),
      (l.foldl (fun a p => a.set p.1 (g p)) emb)[j]? = emb[j]? := by
  induction l with
  | nil => intro emb; rfl
  | cons x xs ih =>
      intro emb
      rw [List.foldl_cons, ih (fun p hp => hj p (List.mem_cons_of_mem x hp))]
      exact List.getElem?_set_ne (hj x (List.mem_cons_self x xs))

lemma foldl_set_get_mem (g : Nat × Chunk → Option Vec) :
    ∀ (l : List (Nat × Chunk)) (emb : List (Option Vec)) (p : Nat × Chunk),
      p ∈ l → (l.map Prod.fst).Nodup → p.1 < emb.length →
      (l.foldl (fun a q => a.set q.1 (g q)) emb)[p.1]? = some (g p) := by
  intro l
  induction l with
  | nil => intro emb p hp _ _; simp at hp
  | cons x xs ih =>
      intro emb p hp hnd hlt
      have hnd' : x.1 ∉ xs.map Prod.fst ∧ (xs.map Prod.fst).Nodup := by
        rw [List.map_cons, List.nodup_cons] at hnd; exact hnd
      rw [List.foldl_cons]
      rcases List.mem_cons.mp hp with rfl | hmem
      · have hx : ∀ q ∈ xs, q.1 ≠ p.1 := by
          intro q hq he
          exact hnd'.1 (he ▸ List.mem_map_of_mem Prod.fst hq)
        rw [foldl_set_get_ne xs g p.1 hx]
        exact List.getElem?_set_self hlt
      · exact ih (emb.set x.1 (g x)) p hmem hnd'.2 (by simpa using hlt)

lemma foldl_zip_set_length :
    ∀ (l : List (Nat × Chunk)) (vs : List Vec) (emb : List (Option Vec)),
      ((l.zip vs).foldl (fun a pe => a.set pe.1.1 (some pe.2)) emb).length =
        emb.length := by
  intro l
  induction l with
  | nil => intro vs emb; rfl
  | cons x xs ih =>
      intro vs emb
      match vs with
      | [] => rfl
      | v :: vs' => simpa using ih vs' (emb.set x.1 (some v))

lemma foldl_zip_set_get_ne :
    ∀ (l : List (Nat × Chunk)) (vs : List Vec) (emb : List (Option Vec)) (j : Nat),
      (∀ p ∈ l, p.1 ≠ j) →
      ((l.zip vs).foldl (fun a pe => a.set pe.1.1 (some pe.2)) emb)[j]? =
        emb[j]? := by
  intro l
  induction l with
  | nil => intro vs emb j _; rfl
  | cons x xs ih =>
      intro vs emb j hj
      match vs with
      | [] => rfl
      | v :: vs' =>
          have step : (((x :: xs).zip (v :: vs')).foldl
              (fun a pe => a.set pe.1.1 (some pe.2)) emb) =
              ((xs.zip vs').foldl (fun a pe => a.set pe.1.1 (some pe.2))
                (emb.set x.1 (some v))) := by
            simp [List.zip]
          rw [step, ih vs' (emb.set x.1 (some v)) j
                (fun p hp => hj p (List.mem_cons_of_mem x hp))]
          exact List.getElem?_set_ne (hj x (List.mem_cons_self x xs))

lemma spliceRound_length (emb : List (Option Vec)) (batch : List (Nat × Chunk))
    (result : Except Unit (List Vec)) :
    (spliceRound emb batch result).length = emb.length := by
  cases result with
  | error e =>
      simp only [spliceRound]
      exact foldl_set_length batch _ emb
  | ok vs =>
      simp only [spliceRound]
      exact foldl_zip_set_length batch vs emb

lemma spliceRound_get_ne (emb : List (Option Vec)) (batch : List (Nat × Chunk))
    (result : Except Unit (List Vec)) (j : Nat)
    (hj : ∀ p ∈ batch, p.1 ≠ j) :
    (spliceRound emb batch result)[j]? = emb[j]? := by
  cases result with
  | error e =>
      simp only [spliceRound]
      exact foldl_set_get_ne batch _ j hj emb
  | ok vs =>
      simp only [spliceRound]
      exact foldl_zip_set_get_ne batch vs emb j hj

/-- On a failed batch, the splice writes the zero vector at each batch
position. -/
lemma spliceRound_get_mem_error (emb : List (Option Vec))
    (batch : List (Nat × Chunk)) (e : Unit)
    (p : Nat × Chunk) (hp : p ∈ batch) (hnd : (batch.map Prod.fst).Nodup)
    (hlt : p.1 < emb.length) :
    (spliceRound emb batch (.error e))[p.1]? = some (some zeroVec) := by
  simp only [spliceRound]
  exact foldl_set_get_mem (fun _ => some zeroVec) batch emb p hp hnd hlt

/-- On a successful batch whose vectors obey the per-text contract, the
splice writes `f model text` at each batch position. -/
lemma spliceRound_get_mem_ok (emb : List (Option Vec))
    (batch : List (Nat × Chunk)) (m : String) (f : String → List Char → Vec)
    (vs : List Vec) (hvs : vs = (batch.map (fun p => p.2.text)).map (f m))
    (p : Nat × Chunk) (hp : p ∈ batch) (hnd : (batch.map Prod.fst).Nodup)
    (hlt : p.1 < emb.length) :
    (spliceRound emb batch (.ok vs))[p.1]? = some (some (f m p.2.text)) := by
  subst hvs
  simp only [spliceRound]
  have hzip : batch.zip ((batch.map (fun p => p.2.text)).map (f m)) =
      batch.map (fun q => (q, f m q.2.text)) := by
    rw [List.map_map]
    have h2 := List.zip_map' (id : Nat × Chunk → Nat × Chunk)
      (fun q => f m q.2.text) batch
    simpa using h2
  rw [hzip, List.foldl_map]
  exact foldl_set_get_mem (fun q => some (f m q.2.text)) batch emb p hp hnd hlt

/-! ## The round loop drains both queues with positional splicing -/


lemma nodup_take_not_mem_drop {α : Type} (l : List α) (n : Nat) (h : l.Nodup)
    (a : α) (ha : a ∈ l.take n) : a ∉ l.drop n := by
  have hnd : (l.take n ++ l.drop n).Nodup := by rwa [List.take_append_drop]
  exact (List.nodup_append.mp hnd).2.2 ha

/-- The `emb1` intermediate of one round: the conditional GTE batch. -/
def roundSpliceGte (client : ClientOracle) (round : Nat)
    (gteQ : List (Nat × Chunk)) (emb : List (Option Vec)) : List (Option Vec) :=
  if gteQ.isEmpty then emb
  else spliceRound emb (gteQ.take client_batch_size)
    (client round "gte" ((gteQ.take client_batch_size).map (fun p => p.2.text)))

/-- The `emb2` value of one round: GTE batch then CodeRank batch. -/
def roundSplice (client : ClientOracle) (round : Nat)
    (gteQ cdQ : List (Nat × Chunk)) (emb : List (Option Vec)) :
    List (Option Vec) :=
  if cdQ.isEmpty then roundSpliceGte client round gteQ emb
  else spliceRound (roundSpliceGte client round gteQ emb)
    (cdQ.take client_batch_size)
    (client round "coderank" ((cdQ.take client_batch_size).map (fun p => p.2.text)))

lemma embedRoundsLoop_step (client : ClientOracle) (fuel : Nat)
    (gteQ cdQ : List (Nat × Chunk)) (r0 : Nat) (emb : List (Option Vec))
    (h : (gteQ.isEmpty && cdQ.isEmpty) = false) :
    embedRoundsLoop client (fuel + 1) gteQ cdQ r0 emb =
      embedRoundsLoop client fuel (gteQ.drop client_batch_size)
        (cdQ.drop client_batch_size) (r0 + 1)
        (roundSplice client (r0 + 1) gteQ cdQ emb) := by
  conv_lhs => rw [embedRoundsLoop]
  rw [if_neg (by simp [h])]
  rfl

lemma roundSpliceGte_length (client : ClientOracle) (round : Nat)
    (gteQ : List (Nat × Chunk)) (emb : List (Option Vec)) :
    (roundSpliceGte client round gteQ emb).length = emb.length := by
  unfold roundSpliceGte
  by_cases hge : gteQ.isEmpty = true
  · rw [if_pos hge]
  · rw [if_neg hge]; exact spliceRound_length ..

lemma roundSpliceGte_get_ne (client : ClientOracle) (round : Nat)
    (gteQ : List (Nat × Chunk)) (emb : List (Option Vec)) (j : Nat)
    (hg : ∀ p ∈ gteQ.take client_batch_size, p.1 ≠ j) :
    (roundSpliceGte client round gteQ emb)[j]? = emb[j]? := by
  unfold roundSpliceGte
  by_cases hge : gteQ.isEmpty = true
  · rw [if_pos hge]
  · rw [if_neg hge]; exact spliceRound_get_ne _ _ _ j hg

lemma roundSpliceGte_get_mem (client : ClientOracle) (f : String → List Char → Vec)
    (hclient : ClientContract client f) (round : Nat)
    (gteQ : List (Nat × Chunk)) (emb : List (Option Vec)) (p : Nat × Chunk)
    (hp : p ∈ gteQ.take client_batch_size)
    (hnd : ((gteQ.take client_batch_size).map Prod.fst).Nodup)
    (hlt : p.1 < emb.length) :
    (roundSpliceGte client round gteQ emb)[p.1]? =
      some (match client round "gte"
          ((gteQ.take client_batch_size).map (fun q => q.2.text)) with
        | .error _ => some zeroVec
        | .ok _ => some (f "gte" p.2.text)) := by
  have hne : ¬gteQ.isEmpty = true := by
    cases gteQ with
    | nil => simp at hp
    | cons x xs => simp
  unfold roundSpliceGte
  rw [if_neg hne]
  cases hX : client round "gte" ((gteQ.take client_batch_size).map (fun q => q.2.text)) with
  | error e =>
      exact spliceRound_get_mem_error emb _ e p hp hnd hlt
  | ok vs =>
      exact spliceRound_get_mem_ok emb _ "gte" f vs
        (hclient round "gte" _ vs hX) p hp hnd hlt

lemma roundSplice_length (client : ClientOracle) (round : Nat)
    (gteQ cdQ : List (Nat × Chunk)) (emb : List (Option Vec)) :
    (roundSplice client round gteQ cdQ emb).length = emb.length := by
  unfold roundSplice
  by_cases hce : cdQ.isEmpty = true
  · rw [if_pos hce]; exact roundSpliceGte_length ..
  · rw [if_neg hce, spliceRound_length]; exact roundSpliceGte_length ..

lemma roundSplice_get_ne (client : ClientOracle) (round : Nat)
    (gteQ cdQ : List (Nat × Chunk)) (emb : List (Option Vec)) (j : Nat)
    (hg : ∀ p ∈ gteQ.take client_batch_size, p.1 ≠ j)
    (hc : ∀ q ∈ cdQ.take client_batch_size, q.1 ≠ j) :
    (roundSplice client round gteQ cdQ emb)[j]? = emb[j]? := by
  unfold roundSplice
  by_cases hce : cdQ.isEmpty = true
  · rw [if_pos hce]; exact roundSpliceGte_get_ne _ _ _ _ j hg
  · rw [if_neg hce, spliceRound_get_ne _ _ _ j hc]
    exact roundSpliceGte_get_ne _ _ _ _ j hg

lemma roundSplice_get_gte (client : ClientOracle) (f : String → List Char → Vec)
    (hclient : ClientContract client f) (round : Nat)
    (gteQ cdQ : List (Nat × Chunk)) (emb : List (Option Vec)) (p : Nat × Chunk)
    (hp : p ∈ gteQ.take client_batch_size)
    (hnd : ((gteQ.take client_batch_size).map Prod.fst).Nodup)
    (hlt : p.1 < emb.length)
    (hdisj : ∀ q ∈ cdQ.take client_batch_size, q.1 ≠ p.1) :
    (roundSplice client round gteQ cdQ emb)[p.1]? =
      some (match client round "gte"
          ((gteQ.take client_batch_size).map (fun q => q.2.text)) with
        | .error _ => some zeroVec
        | .ok _ => some (f "gte" p.2.text)) := by
  unfold roundSplice
  by_cases hce : cdQ.isEmpty = true
  · rw [if_pos hce]; exact roundSpliceGte_get_mem client f hclient round gteQ emb p hp hnd hlt
  · rw [if_neg hce, spliceRound_get_ne _ _ _ p.1 hdisj]
    exact roundSpliceGte_get_mem client f hclient round gteQ emb p hp hnd hlt

lemma roundSplice_get_cd (client : ClientOracle) (f : String → List Char → Vec)
    (hclient : ClientContract client f) (round : Nat)
    (gteQ cdQ : List (Nat × Chunk)) (emb : List (Option Vec)) (q : Nat × Chunk)
    (hq : q ∈ cdQ.take client_batch_size)
    (hnd : ((cdQ.take client_batch_size).map Prod.fst).Nodup)
    (hlt : q.1 < emb.length) :
    (roundSplice client round gteQ cdQ emb)[q.1]? =
      some (match client round "coderank"
          ((cdQ.take client_batch_size).map (fun r => r.2.text)) with
        | .error _ => some zeroVec
        | .ok _ => some (f "coderank" q.2.text)) := by
  have hne : ¬cdQ.isEmpty = true := by
    cases cdQ with
    | nil => simp at hq
    | cons x xs => simp
  unfold roundSplice
  rw [if_neg hne]
  cases hX : client round "coderank"
      ((cdQ.take client_batch_size).map (fun r => r.2.text)) with
  | error e =>
      exact spliceRound_get_mem_error _ _ e q hq hnd
        (by rw [roundSpliceGte_length]; exact hlt)
  | ok vs =>
      exact spliceRound_get_mem_ok _ _ "coderank" f vs
        (hclient round "coderank" _ vs hX) q hq hnd
        (by rw [roundSpliceGte_length]; exact hlt)

/-- Master specification of `embedRoundsLoop`: the result keeps the
length of `emb`; positions outside both queues are untouched; and the
queue element of rank `k` (for either model) receives exactly the value
determined by its round's batch call — `f model text` when the call
succeeded, the zero vector when it raised.  Rank `k` is served in round
`r0 + k / batch_size + 1`, whose batch is the queue slice starting at
`batch_size * (k / batch_size)`. -/
lemma embedRoundsLoop_spec (client : ClientOracle) (f : String → List Char → Vec)
    (hclient : ClientContract client f) :
    ∀ (fuel : Nat) (gteQ cdQ : List (Nat × Chunk)) (r0 : Nat)
      (emb : List (Option Vec)),
      gteQ.length + cdQ.length ≤ fuel →
      (gteQ.map Prod.fst).Nodup → (cdQ.map Prod.fst).Nodup →
      (∀ p ∈ gteQ, ∀ q ∈ cdQ, p.1 ≠ q.1) →
      (∀ p ∈ gteQ, p.1 < emb.length) → (∀ q ∈ cdQ, q.1 < emb.length) →
      (embedRoundsLoop client fuel gteQ cdQ r0 emb).length = emb.length ∧
      (∀ j, (∀ p ∈ gteQ, p.1 ≠ j) → (∀ q ∈ cdQ, q.1 ≠ j) →
        (embedRoundsLoop client fuel gteQ cdQ r0 emb)[j]? = emb[j]?) ∧
      (∀ k (hk : k < gteQ.length),
        (embedRoundsLoop client fuel gteQ cdQ r0 emb)[(gteQ.get ⟨k, hk⟩).1]? =
          some (match client (r0 + k / client_batch_size + 1) "gte"
              (((gteQ.drop (client_batch_size * (k / client_batch_size))).take
                  client_batch_size).map (fun p => p.2.text)) with
            | .error _ => some zeroVec
            | .ok _ => some (f "gte" (gteQ.get ⟨k, hk⟩).2.text))) ∧
      (∀ k (hk : k < cdQ.length),
        (embedRoundsLoop client fuel gteQ cdQ r0 emb)[(cdQ.get ⟨k, hk⟩).1]? =
          some (match client (r0 + k / client_batch_size + 1) "coderank"
              (((cdQ.drop (client_batch_size * (k / client_batch_size))).take
                  client_batch_size).map (fun p => p.2.text)) with
            | .error _ => some zeroVec
            | .ok _ => some (f "coderank" (cdQ.get ⟨k, hk⟩).2.text))) := by
  intro fuel
  induction fuel with
  | zero =>
      intro gteQ cdQ r0 emb hfuel _ _ _ _ _
      refine ⟨rfl, fun j _ _ => rfl, fun k hk => absurd hk (by omega),
        fun k hk => absurd hk (by omega)⟩
  | succ fuel ih =>
      intro gteQ cdQ r0 emb hfuel hndg hndc hdisj hltg hltc
      by_cases hemp : (gteQ.isEmpty && cdQ.isEmpty) = true
      · obtain ⟨h1, h2⟩ := Bool.and_eq_true_iff.mp hemp
        have hg : gteQ = [] := List.isEmpty_iff.mp h1
        have hc : cdQ = [] := List.isEmpty_iff.mp h2
        subst hg; subst hc
        have hred : embedRoundsLoop client (fuel + 1) [] [] r0 emb = emb := by
          simp [embedRoundsLoop]
        refine ⟨by rw [hred], fun j _ _ => by rw [hred],
          fun k hk => absurd hk (by simp), fun k hk => absurd hk (by simp)⟩
      · have hemp' : (gteQ.isEmpty && cdQ.isEmpty) = false :=
          Bool.not_eq_true _ ▸ hemp
        rw [embedRoundsLoop_step client fuel gteQ cdQ r0 emb hemp']
        have hbs : client_batch_size = 32 := rfl
        have hne : gteQ.length ≠ 0 ∨ cdQ.length ≠ 0 := by
          by_contra hcon
          push_neg at hcon
          have h1 : gteQ = [] := List.length_eq_zero.mp hcon.1
          have h2 : cdQ = [] := List.length_eq_zero.mp hcon.2
          subst h1; subst h2
          simp at hemp'
        have hfuel' : (gteQ.drop client_batch_size).length +
            (cdQ.drop client_batch_size).length ≤ fuel := by
          rw [List.length_drop, List.length_drop, hbs]
          omega
        have hndg' : ((gteQ.drop client_batch_size).map Prod.fst).Nodup := by
          rw [List.map_drop]
          exact hndg.sublist (List.drop_sublist _ _)
        have hndc' : ((cdQ.drop client_batch_size).map Prod.fst).Nodup := by
          rw [List.map_drop]
          exact hndc.sublist (List.drop_sublist _ _)
        have hdisj' : ∀ p ∈ gteQ.drop client_batch_size,
            ∀ q ∈ cdQ.drop client_batch_size, p.1 ≠ q.1 :=
          fun p hp q hq =>
            hdisj p (List.drop_subset _ _ hp) q (List.drop_subset _ _ hq)
        have hE : (roundSplice client (r0 + 1) gteQ cdQ emb).length = emb.length :=
          roundSplice_length ..
        have hltg' : ∀ p ∈ gteQ.drop client_batch_size,
            p.1 < (roundSplice client (r0 + 1) gteQ cdQ emb).length := by
          intro p hp; rw [hE]; exact hltg p (List.drop_subset _ _ hp)
        have hltc' : ∀ q ∈ cdQ.drop client_batch_size,
            q.1 < (roundSplice client (r0 + 1) gteQ cdQ emb).length := by
          intro q hq; rw [hE]; exact hltc q (List.drop_subset _ _ hq)
        obtain ⟨ihlen, ihpres, ihgte, ihcd⟩ :=
          ih (gteQ.drop client_batch_size) (cdQ.drop client_batch_size) (r0 + 1)
            (roundSplice client (r0 + 1) gteQ cdQ emb)
            hfuel' hndg' hndc' hdisj' hltg' hltc'
        refine ⟨by rw [ihlen, hE], ?_, ?_, ?_⟩
        · -- positions outside both queues are untouched
          intro j hjg hjc
          rw [ihpres j (fun p hp => hjg p (List.drop_subset _ _ hp))
              (fun q hq => hjc q (List.drop_subset _ _ hq))]
          exact roundSplice_get_ne client (r0 + 1) gteQ cdQ emb j
            (fun p hp => hjg p (List.take_subset _ _ hp))
            (fun q hq => hjc q (List.take_subset _ _ hq))
        · -- GTE queue positions
          intro k hk
          by_cases hk32 : k < client_batch_size
          · -- rank inside this round's batch
            have hdiv : k / client_batch_size = 0 := Nat.div_eq_of_lt hk32
            have hgetk : (gteQ.take client_batch_size).get
                ⟨k, by rw [List.length_take]; omega⟩ = gteQ.get ⟨k, hk⟩ := by
              simp [List.getElem_take]
            have hmem : gteQ.get ⟨k, hk⟩ ∈ gteQ.take client_batch_size := by
              rw [← hgetk]; exact List.get_mem ..
            have hnget : (gteQ.get ⟨k, hk⟩).1 ∉
                ((gteQ.drop client_batch_size).map Prod.fst) := by
              have := nodup_take_not_mem_drop (gteQ.map Prod.fst) client_batch_size
                hndg (gteQ.get ⟨k, hk⟩).1
                (by rw [← List.map_take]
                    exact List.mem_map_of_mem Prod.fst hmem)
              rwa [← List.map_drop] at this
            rw [ihpres (gteQ.get ⟨k, hk⟩).1
                (fun p hp he => hnget (he ▸ List.mem_map_of_mem Prod.fst hp))
                (fun q hq he =>
                  hdisj (gteQ.get ⟨k, hk⟩) (List.get_mem ..) q
                    (List.drop_subset _ _ hq) he.symm)]
            rw [hdiv, Nat.mul_zero, List.drop_zero, Nat.add_zero]
            exact roundSplice_get_gte client f hclient (r0 + 1) gteQ cdQ emb
              (gteQ.get ⟨k, hk⟩) hmem
              (by rw [List.map_take]
                  exact hndg.sublist (List.take_sublist _ _))
              (hltg _ (List.get_mem ..))
              (fun q hq =>
                fun he => hdisj (gteQ.get ⟨k, hk⟩) (List.get_mem ..) q
                  (List.take_subset _ _ hq) he.symm)
          · -- rank served in a later round
            have hk' : k - client_batch_size < (gteQ.drop client_batch_size).length := by
              rw [List.length_drop]; omega
            have hget : (gteQ.drop client_batch_size).get ⟨k - client_batch_size, hk'⟩ =
                gteQ.get ⟨k, hk⟩ := by
              simp only [List.get_eq_getElem, List.getElem_drop]
              congr 1
              omega
            have := ihgte (k - client_batch_size) hk'
            rw [hget] at this
            rw [this]
            have hdivs : r0 + 1 + (k - client_batch_size) / client_batch_size + 1 =
                r0 + k / client_batch_size + 1 := by
              rw [hbs] at *; omega
            have hdrops : (gteQ.drop client_batch_size).drop
                (client_batch_size * ((k - client_batch_size) / client_batch_size)) =
                gteQ.drop (client_batch_size * (k / client_batch_size)) := by
              rw [List.drop_drop]
              congr 1
              rw [hbs] at *; omega
            rw [hdivs, hdrops]
        · -- CodeRank queue positions
          intro k hk
          by_cases hk32 : k < client_batch_size
          · have hdiv : k / client_batch_size = 0 := Nat.div_eq_of_lt hk32
            have hgetk : (cdQ.take client_batch_size).get
                ⟨k, by rw [List.length_take]; omega⟩ = cdQ.get ⟨k, hk⟩ := by
              simp [List.getElem_take]
            have hmem : cdQ.get ⟨k, hk⟩ ∈ cdQ.take client_batch_size := by
              rw [← hgetk]; exact List.get_mem ..
            have hnget : (cdQ.get ⟨k, hk⟩).1 ∉
                ((cdQ.drop client_batch_size).map Prod.fst) := by
              have := nodup_take_not_mem_drop (cdQ.map Prod.fst) client_batch_size
                hndc (cdQ.get ⟨k, hk⟩).1
                (by rw [← List.map_take]
                    exact List.mem_map_of_mem Prod.fst hmem)
              rwa [← List.map_drop] at this
            rw [ihpres (cdQ.get ⟨k, hk⟩).1
                (fun p hp he =>
                  hdisj p (List.drop_subset _ _ hp) (cdQ.get ⟨k, hk⟩)
                    (List.get_mem ..) he)
                (fun q hq he => hnget (he ▸ List.mem_map_of_mem Prod.fst hq))]
            rw [hdiv, Nat.mul_zero, List.drop_zero, Nat.add_zero]
            exact roundSplice_get_cd client f hclient (r0 + 1) gteQ cdQ emb
              (cdQ.get ⟨k, hk⟩) hmem
              (by rw [List.map_take]
                  exact hndc.sublist (List.take_sublist _ _))
              (hltc _ (List.get_mem ..))
          · have hk' : k - client_batch_size < (cdQ.drop client_batch_size).length := by
              rw [List.length_drop]; omega
            have hget : (cdQ.drop client_batch_size).get ⟨k - client_batch_size, hk'⟩ =
                cdQ.get ⟨k, hk⟩ := by
              simp only [List.get_eq_getElem, List.getElem_drop]
              congr 1
              omega
            have := ihcd (k - client_batch_size) hk'
            rw [hget] at this
            rw [this]
            have hdivs : r0 + 1 + (k - client_batch_size) / client_batch_size + 1 =
                r0 + k / client_batch_size + 1 := by
              rw [hbs] at *; omega
            have hdrops : (cdQ.drop client_batch_size).drop
                (client_batch_size * ((k - client_batch_size) / client_batch_size)) =
                cdQ.drop (client_batch_size * (k / client_batch_size)) := by
              rw [List.drop_drop]
              congr 1
              rw [hbs] at *; omega
            rw [hdivs, hdrops]

/-! ## Queue facts for `enumerate(chunks)` filtered by model hint -/

lemma enum_filter_nodup (chunks : List Chunk) (pred : Nat × Chunk → Bool) :
    ((chunks.enum.filter pred).map Prod.fst).Nodup :=
  (List.nodup_enum_map_fst chunks).sublist
    ((List.filter_sublist _).map Prod.fst)

lemma enum_filter_lt (chunks : List Chunk) (pred : Nat × Chunk → Bool) :
    ∀ p ∈ chunks.enum.filter pred, p.1 < chunks.length := by
  intro p hp
  have h1 : p ∈ chunks.enum := List.mem_of_mem_filter hp
  have h2 := List.mem_enum_iff_getElem?.mp h1
  obtain ⟨hlt, _⟩ := List.getElem?_eq_some.mp h2
  exact hlt

lemma enum_filter_snd (chunks : List Chunk) (pred : Nat × Chunk → Bool) :
    ∀ p ∈ chunks.enum.filter pred, ∀ h : p.1 < chunks.length,
      chunks.get ⟨p.1, h⟩ = p.2 := by
  intro p hp h
  have h1 : p ∈ chunks.enum := List.mem_of_mem_filter hp
  have h2 := List.mem_enum_iff_getElem?.mp h1
  obtain ⟨hlt, hEq⟩ := List.getElem?_eq_some.mp h2
  simpa using hEq

lemma enum_filter_hint_disjoint (chunks : List Chunk) :
    ∀ p ∈ chunks.enum.filter (fun p => p.2.model_hint == "gte"),
      ∀ q ∈ chunks.enum.filter (fun p => p.2.model_hint == "coderank"),
        p.1 ≠ q.1 := by
  intro p hp q hq he
  have hp2 := List.of_mem_filter hp
  have hq2 := List.of_mem_filter hq
  have hgp := List.mem_enum_iff_getElem?.mp (List.mem_of_mem_filter hp)
  have hgq := List.mem_enum_iff_getElem?.mp (List.mem_of_mem_filter hq)
  rw [he, hgq] at hgp
  have hsnd : q.2 = p.2 := by injection hgp
  simp only [beq_iff_eq] at hp2 hq2
  rw [hsnd, hp2] at hq2
  exact absurd hq2 (by decide)

lemma enum_filter_mem (chunks : List Chunk) (pred : Nat × Chunk → Bool)
    (k : Nat) (hk : k < chunks.length) (hpred : pred (k, chunks.get ⟨k, hk⟩)) :
    (k, chunks.get ⟨k, hk⟩) ∈ chunks.enum.filter pred := by
  apply List.mem_filter.mpr
  refine ⟨List.mem_enum_iff_getElem?.mpr ?_, hpred⟩
  simp

lemma length_filter_disjoint_le {α : Type} (p q : α → Bool) :
    ∀ l : List α, (∀ x ∈ l, ¬(p x = true ∧ q x = true)) →
      (l.filter p).length + (l.filter q).length ≤ l.length := by
  intro l
  induction l with
  | nil => intro _; simp
  | cons x xs ih =>
      intro h
      have hxs := ih (fun y hy => h y (List.mem_cons_of_mem x hy))
      by_cases hp : p x = true
      · have hq : ¬q x = true := fun hq => h x (List.mem_cons_self ..) ⟨hp, hq⟩
        simp [List.filter_cons, hp, hq]
        omega
      · by_cases hq : q x = true
        · simp [List.filter_cons, hp, hq]
          omega
        · simp [List.filter_cons, hp, hq]
          omega

lemma hint_queues_length_le (chunks : List Chunk) :
    (chunks.enum.filter (fun p => p.2.model_hint == "gte")).length +
      (chunks.enum.filter (fun p => p.2.model_hint == "coderank")).length ≤
      chunks.length := by
  have h := length_filter_disjoint_le (fun p : Nat × Chunk => p.2.model_hint == "gte")
    (fun p : Nat × Chunk => p.2.model_hint == "coderank") chunks.enum
    (by
      intro x _ hx
      obtain ⟨h1, h2⟩ := hx
      simp only [beq_iff_eq] at h1 h2
      rw [h1] at h2
      exact absurd h2 (by decide))
  simpa [List.enum_length] using h

/-! ## Per-strategy specifications -/

lemma foldl_zip_set_get_mem (emb : List (Option Vec)) (batch : List (Nat × Chunk))
    (m : String) (f : String → List Char → Vec) (vs : List Vec)
    (hvs : vs = (batch.map (fun p => p.2.text)).map (f m))
    (p : Nat × Chunk) (hp : p ∈ batch) (hnd : (batch.map Prod.fst).Nodup)
    (hlt : p.1 < emb.length) :
    ((batch.zip vs).foldl (fun a pe => a.set pe.1.1 (some pe.2)) emb)[p.1]? =
      some (some (f m p.2.text)) := by
  subst hvs
  have hzip : batch.zip ((batch.map (fun p => p.2.text)).map (f m)) =
      batch.map (fun q => (q, f m q.2.text)) := by
    rw [List.map_map]
    have h2 := List.zip_map' (id : Nat × Chunk → Nat × Chunk)
      (fun q => f m q.2.text) batch
    simpa using h2
  rw [hzip, List.foldl_map]
  exact foldl_set_get_mem (fun q => some (f m q.2.text)) batch emb p hp hnd hlt

/-- Full behaviour of `_embed_parallel_unified` (shared by the
alignment and fault-tolerance theorems): the result list keeps the
input length, and the queue element of rank `k` of either model
receives `f model text` when round `k/32 + 1`'s batch call for that
model succeeded and the zero vector when it raised. -/
lemma embed_parallel_unified_spec (client : ClientOracle)
    (f : String → List Char → Vec) (hclient : ClientContract client f)
    (chunks : List Chunk) :
    (embed_parallel_unified client chunks).length = chunks.length ∧
    (∀ k (hk : k < (chunks.enum.filter
        (fun p => p.2.model_hint == "gte")).length),
      (embed_parallel_unified client chunks)[((chunks.enum.filter
          (fun p => p.2.model_hint == "gte")).get ⟨k, hk⟩).1]? =
        some (match client (k / client_batch_size + 1) "gte"
            ((((chunks.enum.filter (fun p => p.2.model_hint == "gte")).drop
                (client_batch_size * (k / client_batch_size))).take
                client_batch_size).map (fun p => p.2.text)) with
          | .error _ => some zeroVec
          | .ok _ => some (f "gte" ((chunks.enum.filter
              (fun p => p.2.model_hint == "gte")).get ⟨k, hk⟩).2.text))) ∧
    (∀ k (hk : k < (chunks.enum.filter
        (fun p => p.2.model_hint == "coderank")).length),
      (embed_parallel_unified client chunks)[((chunks.enum.filter
          (fun p => p.2.model_hint == "coderank")).get ⟨k, hk⟩).1]? =
        some (match client (k / client_batch_size + 1) "coderank"
            ((((chunks.enum.filter (fun p => p.2.model_hint == "coderank")).drop
                (client_batch_size * (k / client_batch_size))).take
                client_batch_size).map (fun p => p.2.text)) with
          | .error _ => some zeroVec
          | .ok _ => some (f "coderank" ((chunks.enum.filter
              (fun p => p.2.model_hint == "coderank")).get ⟨k, hk⟩).2.text))) := by
  obtain ⟨hlen, _, hgte, hcd⟩ := embedRoundsLoop_spec client f hclient
    (chunks.length + 1)
    (chunks.enum.filter (fun p => p.2.model_hint == "gte"))
    (chunks.enum.filter (fun p => p.2.model_hint == "coderank")) 0
    (List.replicate chunks.length none)
    (le_trans (hint_queues_length_le chunks) (Nat.le_succ _))
    (enum_filter_nodup ..) (enum_filter_nodup ..)
    (enum_filter_hint_disjoint chunks)
    (by intro p hp
        rw [List.length_replicate]
        exact enum_filter_lt chunks _ p hp)
    (by intro q hq
        rw [List.length_replicate]
        exact enum_filter_lt chunks _ q hq)
  refine ⟨by rw [show embed_parallel_unified client chunks =
      embedRoundsLoop client (chunks.length + 1)
        (chunks.enum.filter (fun p => p.2.model_hint == "gte"))
        (chunks.enum.filter (fun p => p.2.model_hint == "coderank")) 0
        (List.replicate chunks.length none) from rfl, hlen,
      List.length_replicate], ?_, ?_⟩
  · intro k hk
    have h := hgte k hk
    rw [Nat.zero_add] at h
    exact h
  · intro k hk
    have h := hcd k hk
    rw [Nat.zero_add] at h
    exact h

lemma embed_single_model_spec (client : ClientOracle)
    (f : String → List Char → Vec) (hclient : ClientContract client f)
    (chunks : List Chunk) (result : List (Option Vec))
    (hres : embed_single_model client chunks = .ok result) :
    result = chunks.map (fun c => some
      (f (match chunks with | [] => "gte" | c0 :: _ => c0.model_hint) c.text)) := by
  rcases chunks with _ | ⟨c, rest⟩
  · simp only [embed_single_model] at hres
    cases hX : client 1 "gte" (([] : List Chunk).map (fun c => c.text)) with
    | error e =>
        rw [hX] at hres
        exact absurd hres (by simp [Except.map])
    | ok vs =>
        rw [hX] at hres
        have hvs := hclient 1 _ _ vs hX
        simp only [Except.map, Except.ok.injEq] at hres
        simp only [List.map_nil] at hvs
        simp [← hres, hvs]
  · simp only [embed_single_model] at hres
    cases hX : client 1 c.model_hint ((c :: rest).map (fun x => x.text)) with
    | error e =>
        rw [hX] at hres
        exact absurd hres (by simp [Except.map])
    | ok vs =>
        rw [hX] at hres
        have hvs := hclient 1 _ _ vs hX
        simp only [Except.map, Except.ok.injEq] at hres
        rw [← hres, hvs, List.map_map, List.map_map]
        rfl

lemma embed_sequential_spec (client : ClientOracle)
    (f : String → List Char → Vec) (hclient : ClientContract client f)
    (chunks : List Chunk) (result : List (Option Vec))
    (hres : embed_sequential client chunks = .ok result) :
    result.length = chunks.length ∧
    (∀ k (hk : k < chunks.length), (chunks.get ⟨k, hk⟩).model_hint = "gte" →
      result[k]? = some (some (f "gte" (chunks.get ⟨k, hk⟩).text))) ∧
    (∀ k (hk : k < chunks.length), (chunks.get ⟨k, hk⟩).model_hint = "coderank" →
      result[k]? = some (some (f "coderank" (chunks.get ⟨k, hk⟩).text))) := by
  simp only [embed_sequential] at hres
  -- the intermediate list `emb1` after the (conditional) GTE call
  by_cases hge : (chunks.enum.filter
      (fun p => p.2.model_hint == "gte")).isEmpty = true
  · rw [if_pos hge] at hres
    simp only [Except.bind] at hres
    have hgeq : chunks.enum.filter (fun p => p.2.model_hint == "gte") = [] :=
      List.isEmpty_iff.mp hge
    by_cases hce : (chunks.enum.filter
        (fun p => p.2.model_hint == "coderank")).isEmpty = true
    · rw [if_pos hce] at hres
      have hceq : chunks.enum.filter (fun p => p.2.model_hint == "coderank") = [] :=
        List.isEmpty_iff.mp hce
      simp only [Except.ok.injEq] at hres
      subst hres
      refine ⟨List.length_replicate .., ?_, ?_⟩
      · intro k hk hhint
        have hmem := enum_filter_mem chunks (fun p => p.2.model_hint == "gte")
          k hk (by simp only [List.get_eq_getElem] at hhint; simp [hhint])
        rw [hgeq] at hmem
        simp at hmem
      · intro k hk hhint
        have hmem := enum_filter_mem chunks (fun p => p.2.model_hint == "coderank")
          k hk (by simp only [List.get_eq_getElem] at hhint; simp [hhint])
        rw [hceq] at hmem
        simp at hmem
    · rw [if_neg hce] at hres
      cases hX2 : client 2 "coderank" ((chunks.enum.filter
          (fun p => p.2.model_hint == "coderank")).map (fun p => p.2.text)) with
      | error e =>
          rw [hX2] at hres
          exact absurd hres (by simp [Except.map])
      | ok vs2 =>
          rw [hX2] at hres
          have hvs2 := hclient 2 _ _ vs2 hX2
          simp only [Except.map, Except.ok.injEq] at hres
          subst hres
          constructor
          · rw [foldl_zip_set_length, List.length_replicate]
          constructor
          · intro k hk hhint
            have hmem := enum_filter_mem chunks (fun p => p.2.model_hint == "gte")
              k hk (by simp only [List.get_eq_getElem] at hhint; simp [hhint])
            rw [hgeq] at hmem
            simp at hmem
          · intro k hk hhint
            have hmem := enum_filter_mem chunks
              (fun p => p.2.model_hint == "coderank") k hk (by simp only [List.get_eq_getElem] at hhint; simp [hhint])
            exact foldl_zip_set_get_mem _ _ "coderank" f vs2
              hvs2
              (k, chunks.get ⟨k, hk⟩) hmem (enum_filter_nodup ..)
              (by rw [List.length_replicate]; exact hk)
  · rw [if_neg hge] at hres
    cases hX1 : client 1 "gte" ((chunks.enum.filter
        (fun p => p.2.model_hint == "gte")).map (fun p => p.2.text)) with
    | error e =>
        rw [hX1] at hres
        exact absurd hres (by simp [Except.map, Except.bind])
    | ok vs1 =>
        rw [hX1] at hres
        have hvs1 := hclient 1 _ _ vs1 hX1
        simp only [Except.map, Except.bind] at hres
        -- emb1 is the GTE-spliced list
        by_cases hce : (chunks.enum.filter
            (fun p => p.2.model_hint == "coderank")).isEmpty = true
        · rw [if_pos hce] at hres
          have hceq : chunks.enum.filter
              (fun p => p.2.model_hint == "coderank") = [] :=
            List.isEmpty_iff.mp hce
          simp only [Except.ok.injEq] at hres
          subst hres
          constructor
          · rw [foldl_zip_set_length, List.length_replicate]
          constructor
          · intro k hk hhint
            have hmem := enum_filter_mem chunks (fun p => p.2.model_hint == "gte")
              k hk (by simp only [List.get_eq_getElem] at hhint; simp [hhint])
            exact foldl_zip_set_get_mem _ _ "gte" f vs1
              hvs1
              (k, chunks.get ⟨k, hk⟩) hmem (enum_filter_nodup ..)
              (by rw [List.length_replicate]; exact hk)
          · intro k hk hhint
            have hmem := enum_filter_mem chunks
              (fun p => p.2.model_hint == "coderank") k hk (by simp only [List.get_eq_getElem] at hhint; simp [hhint])
            rw [hceq] at hmem
            simp at hmem
        · rw [if_neg hce] at hres
          cases hX2 : client 2 "coderank" ((chunks.enum.filter
              (fun p => p.2.model_hint == "coderank")).map (fun p => p.2.text)) with
          | error e =>
              rw [hX2] at hres
              exact absurd hres (by simp [Except.map])
          | ok vs2 =>
              rw [hX2] at hres
              have hvs2 := hclient 2 _ _ vs2 hX2
              simp only [Except.map, Except.ok.injEq] at hres
              subst hres
              constructor
              · rw [foldl_zip_set_length, foldl_zip_set_length,
                  List.length_replicate]
              constructor
              · intro k hk hhint
                have hmem := enum_filter_mem chunks
                  (fun p => p.2.model_hint == "gte") k hk (by simp only [List.get_eq_getElem] at hhint; simp [hhint])
                rw [foldl_zip_set_get_ne _ vs2 _ k
                    (fun q hq => (enum_filter_hint_disjoint chunks
                      (k, chunks.get ⟨k, hk⟩) hmem q hq).symm)]
                exact foldl_zip_set_get_mem _ _ "gte" f vs1
                  hvs1
                  (k, chunks.get ⟨k, hk⟩) hmem (enum_filter_nodup ..)
                  (by rw [List.length_replicate]; exact hk)
              · intro k hk hhint
                have hmem := enum_filter_mem chunks
                  (fun p => p.2.model_hint == "coderank") k hk (by simp only [List.get_eq_getElem] at hhint; simp [hhint])
                exact foldl_zip_set_get_mem _ _ "coderank" f vs2
                  hvs2
                  (k, chunks.get ⟨k, hk⟩) hmem (enum_filter_nodup ..)
                  (by rw [foldl_zip_set_length, List.length_replicate]; exact hk)

/-- C1.  For every chunk list passed to `_embed_chunks`, a successfully
returned vector list has the same length as the input, and the entry at
position `i` is the vector the embedding service produces for
`chunks[i].text` under the model selected by `chunks[i].model_hint` —
or that position's zero-vector fallback — under every strategy
(single-model direct, unified parallel batching, and sequential). -/
theorem embed_chunks_positional_alignment
    (flag : Bool) (client : ClientOracle) (f : String → List Char → Vec)
    (hclient : ClientContract client f) (chunks : List Chunk)
    (hhints : ∀ c ∈ chunks, c.model_hint = "gte" ∨ c.model_hint = "coderank")
    (result : List (Option Vec))
    (hres : embed_chunks flag client chunks = .ok result) :
    result.length = chunks.length ∧
      ∀ k (hk : k < chunks.length),
        result[k]? = some (some (f (chunks.get ⟨k, hk⟩).model_hint
            (chunks.get ⟨k, hk⟩).text)) ∨
          result[k]? = some (some zeroVec) := by
  simp only [embed_chunks] at hres
  by_cases hsingle : (chunks.filter (fun c => c.model_hint == "gte")).length = 0 ∨
      (chunks.filter (fun c => c.model_hint == "coderank")).length = 0
  · -- single-model direct path
    rw [if_pos hsingle] at hres
    have h := embed_single_model_spec client f hclient chunks result hres
    have hconst : ∀ c1 ∈ chunks, ∀ c2 ∈ chunks,
        c1.model_hint = c2.model_hint := by
      rcases hsingle with h0 | h0
      · have hall := List.filter_eq_nil_iff.mp (List.length_eq_zero.mp h0)
        intro c1 h1 c2 h2
        have e1 := (hhints c1 h1).resolve_left
          (fun he => hall c1 h1 (by simp [he]))
        have e2 := (hhints c2 h2).resolve_left
          (fun he => hall c2 h2 (by simp [he]))
        rw [e1, e2]
      · have hall := List.filter_eq_nil_iff.mp (List.length_eq_zero.mp h0)
        intro c1 h1 c2 h2
        have e1 := (hhints c1 h1).resolve_right
          (fun he => hall c1 h1 (by simp [he]))
        have e2 := (hhints c2 h2).resolve_right
          (fun he => hall c2 h2 (by simp [he]))
        rw [e1, e2]
    constructor
    · rw [h, List.length_map]
    · intro k hk
      left
      rw [h, List.getElem?_map, List.getElem?_eq_getElem hk]
      simp only [Option.map_some']
      obtain ⟨c0, rest, hc⟩ : ∃ c0 rest, chunks = c0 :: rest := by
        cases chunks with
        | nil => exact absurd hk (by simp)
        | cons a l => exact ⟨a, l, rfl⟩
      subst hc
      show some (some (f c0.model_hint ((c0 :: rest)[k]).text)) = _
      rw [hconst c0 (List.mem_cons_self ..) ((c0 :: rest).get ⟨k, hk⟩)
        (List.get_mem ..)]
      rfl
  · rw [if_neg hsingle] at hres
    by_cases hflag : flag = true
    · -- unified parallel batching
      rw [if_pos hflag] at hres
      have hresult : embed_parallel_unified client chunks = result := by
        simpa using hres
      obtain ⟨hlen, hgte, hcd⟩ :=
        embed_parallel_unified_spec client f hclient chunks
      refine ⟨by rw [← hresult, hlen], ?_⟩
      intro k hk
      rcases hhints (chunks.get ⟨k, hk⟩) (List.get_mem ..) with hhint | hhint
      · have hmem := enum_filter_mem chunks (fun p => p.2.model_hint == "gte")
          k hk (by simp only [List.get_eq_getElem] at hhint; simp [hhint])
        obtain ⟨r, hgetr⟩ := List.mem_iff_get.mp hmem
        have hval := hgte r.1 r.2
        rw [show (⟨r.1, r.2⟩ : Fin _) = r from rfl, hgetr] at hval
        rw [← hresult]
        cases hX : client (r.1 / client_batch_size + 1) "gte"
            ((((chunks.enum.filter (fun p => p.2.model_hint == "gte")).drop
                (client_batch_size * (r.1 / client_batch_size))).take
                client_batch_size).map (fun p => p.2.text)) with
        | error e => right; rw [hX] at hval; exact hval
        | ok vs => left; rw [hX] at hval; rw [hhint]; exact hval
      · have hmem := enum_filter_mem chunks
          (fun p => p.2.model_hint == "coderank") k hk (by simp only [List.get_eq_getElem] at hhint; simp [hhint])
        obtain ⟨r, hgetr⟩ := List.mem_iff_get.mp hmem
        have hval := hcd r.1 r.2
        rw [show (⟨r.1, r.2⟩ : Fin _) = r from rfl, hgetr] at hval
        rw [← hresult]
        cases hX : client (r.1 / client_batch_size + 1) "coderank"
            ((((chunks.enum.filter (fun p => p.2.model_hint == "coderank")).drop
                (client_batch_size * (r.1 / client_batch_size))).take
                client_batch_size).map (fun p => p.2.text)) with
        | error e => right; rw [hX] at hval; exact hval
        | ok vs => left; rw [hX] at hval; rw [hhint]; exact hval
    · -- sequential fallback
      rw [if_neg hflag] at hres
      obtain ⟨hlen, hgte, hcd⟩ :=
        embed_sequential_spec client f hclient chunks result hres
      refine ⟨hlen, ?_⟩
      intro k hk
      left
      rcases hhints (chunks.get ⟨k, hk⟩) (List.get_mem ..) with hhint | hhint
      · rw [hhint]; exact hgte k hk hhint
      · rw [hhint]; exact hcd k hk hhint

/-- C4.  In unified parallel batching, when the batch submitted to one
model in a round fails, every input position belonging to that batch is
filled with a zero vector of dimension 768 (`[0.0]*768`), while the
other model's batches in that and every other round are processed
normally; no exception escapes the loop (the function is total) and
processing continues until both queues drain — under the model-hint
invariant every input position ends up filled. -/
theorem embed_parallel_unified_fault_isolation
    (client : ClientOracle) (f : String → List Char → Vec)
    (hclient : ClientContract client f) (chunks : List Chunk) :
    (embed_parallel_unified client chunks).length = chunks.length ∧
    (∀ k (hk : k < (chunks.enum.filter
        (fun p => p.2.model_hint == "gte")).length),
      (embed_parallel_unified client chunks)[((chunks.enum.filter
          (fun p => p.2.model_hint == "gte")).get ⟨k, hk⟩).1]? =
        some (match client (k / client_batch_size + 1) "gte"
            ((((chunks.enum.filter (fun p => p.2.model_hint == "gte")).drop
                (client_batch_size * (k / client_batch_size))).take
                client_batch_size).map (fun p => p.2.text)) with
          | .error _ => some (List.replicate 768 (0 : ℚ))
          | .ok _ => some (f "gte" ((chunks.enum.filter
              (fun p => p.2.model_hint == "gte")).get ⟨k, hk⟩).2.text))) ∧
    (∀ k (hk : k < (chunks.enum.filter
        (fun p => p.2.model_hint == "coderank")).length),
      (embed_parallel_unified client chunks)[((chunks.enum.filter
          (fun p => p.2.model_hint == "coderank")).get ⟨k, hk⟩).1]? =
        some (match client (k / client_batch_size + 1) "coderank"
            ((((chunks.enum.filter (fun p => p.2.model_hint == "coderank")).drop
                (client_batch_size * (k / client_batch_size))).take
                client_batch_size).map (fun p => p.2.text)) with
          | .error _ => some (List.replicate 768 (0 : ℚ))
          | .ok _ => some (f "coderank" ((chunks.enum.filter
              (fun p => p.2.model_hint == "coderank")).get ⟨k, hk⟩).2.text))) ∧
    ((∀ c ∈ chunks, c.model_hint = "gte" ∨ c.model_hint = "coderank") →
      ∀ k (hk : k < chunks.length),
        ∃ v, (embed_parallel_unified client chunks)[k]? = some (some v)) := by
  obtain ⟨hlen, hgte, hcd⟩ := embed_parallel_unified_spec client f hclient chunks
  refine ⟨hlen, hgte, hcd, ?_⟩
  intro hhints k hk
  rcases hhints (chunks.get ⟨k, hk⟩) (List.get_mem ..) with hhint | hhint
  · have hmem := enum_filter_mem chunks (fun p => p.2.model_hint == "gte")
      k hk (by simp only [List.get_eq_getElem] at hhint; simp [hhint])
    obtain ⟨r, hgetr⟩ := List.mem_iff_get.mp hmem
    have hval := hgte r.1 r.2
    rw [show (⟨r.1, r.2⟩ : Fin _) = r from rfl, hgetr] at hval
    cases hX : client (r.1 / client_batch_size + 1) "gte"
        ((((chunks.enum.filter (fun p => p.2.model_hint == "gte")).drop
            (client_batch_size * (r.1 / client_batch_size))).take
            client_batch_size).map (fun p => p.2.text)) with
    | error e => rw [hX] at hval; exact ⟨zeroVec, hval⟩
    | ok vs => rw [hX] at hval; exact ⟨_, hval⟩
  · have hmem := enum_filter_mem chunks (fun p => p.2.model_hint == "coderank")
      k hk (by simp only [List.get_eq_getElem] at hhint; simp [hhint])
    obtain ⟨r, hgetr⟩ := List.mem_iff_get.mp hmem
    have hval := hcd r.1 r.2
    rw [show (⟨r.1, r.2⟩ : Fin _) = r from rfl, hgetr] at hval
    cases hX : client (r.1 / client_batch_size + 1) "coderank"
        ((((chunks.enum.filter (fun p => p.2.model_hint == "coderank")).drop
            (client_batch_size * (r.1 / client_batch_size))).take
            client_batch_size).map (fun p => p.2.text)) with
    | error e => rw [hX] at hval; exact ⟨zeroVec, hval⟩
    | ok vs => rw [hX] at hval; exact ⟨_, hval⟩

/-- Witness for C1: a concrete two-chunk input (one chunk per model)
under an always-succeeding concrete service, routed through the
parallel strategy; the returned list is position-aligned and has the
input's length. -/
theorem embed_chunks_positional_alignment_witness :
    ([some [(1 : ℚ)], some [(1 : ℚ)]] : List (Option Vec)).length =
      ([Chunk.mk ['a'] false "unknown" 0 1 0 0 "" "gte",
        Chunk.mk ['b'] true "python" 1 2 1 1 "" "coderank"] : List Chunk).length :=
  (embed_chunks_positional_alignment true
    (fun _ _ ts => Except.ok (ts.map (fun _ => [(1 : ℚ)])))
    (fun _ _ => [(1 : ℚ)])
    (fun _ _ ts vs h => by
      injection h with h2
      exact h2.symm)
    [Chunk.mk ['a'] false "unknown" 0 1 0 0 "" "gte",
     Chunk.mk ['b'] true "python" 1 2 1 1 "" "coderank"]
    (by decide)
    [some [(1 : ℚ)], some [(1 : ℚ)]]
    (by rfl)).1

/-- Witness for C4: the concrete service fails every CodeRank batch and
serves every GTE batch; the parallel loop still returns a full-length
list (position 1 receiving the zero vector, position 0 its GTE
embedding). -/
theorem embed_parallel_unified_fault_isolation_witness :
    (embed_parallel_unified
        (fun _ m ts => if m = "coderank" then .error ()
          else Except.ok (ts.map (fun _ => [(1 : ℚ)])))
        [Chunk.mk ['a'] false "unknown" 0 1 0 0 "" "gte",
         Chunk.mk ['b'] true "python" 1 2 1 1 "" "coderank"]).length =
      ([Chunk.mk ['a'] false "unknown" 0 1 0 0 "" "gte",
        Chunk.mk ['b'] true "python" 1 2 1 1 "" "coderank"] : List Chunk).length :=
  (embed_parallel_unified_fault_isolation
    (fun _ m ts => if m = "coderank" then .error ()
      else Except.ok (ts.map (fun _ => [(1 : ℚ)])))
    (fun _ _ => [(1 : ℚ)])
    (fun _ m ts vs h => by
      dsimp only at h
      by_cases hm : m = "coderank"
      · rw [if_pos hm] at h
        exact absurd h (by simp)
      · rw [if_neg hm] at h
        injection h with h2
        exact h2.symm)
    [Chunk.mk ['a'] false "unknown" 0 1 0 0 "" "gte",
     Chunk.mk ['b'] true "python" 1 2 1 1 "" "coderank"]).1

/-! # Recursive text splitter (`chunking/text_splitter.py`)

Text is `List Char`; Python's slice `text[a:b]` (with `0 ≤ a, b`) is
`(text.drop a).take (b - a)`. -/

/-- Python slice `s[a:b]` for non-negative bounds. -/
def pySlice (s : List Char) (a b : Nat) : List Char :=
  (s.drop a).take (b - a)

/-- `TextChunk` dataclass. -/
structure TextChunk where
  text : List Char
  start_char : Nat
  end_char : Nat
deriving Repr, DecidableEq

/-- `RecursiveTextSplitter.__init__`: the constructor raises
`ValueError` unless `chunk_overlap < chunk_size`, so a constructed
splitter always carries that fact. -/
structure RecursiveTextSplitter where
  chunk_size : Nat
  chunk_overlap : Nat
  valid : chunk_overlap < chunk_size

/-- `SEPARATORS` hierarchy. -/
def SEPARATORS : List (List Char) :=
  ["\n\n\n".toList, "\n\n".toList, "\n".toList, ". ".toList, "! ".toList,
   "? ".toList, "; ".toList, ", ".toList, " ".toList, "".toList]

/-- The regex class `\s` on the ASCII whitespace characters
(`[ \t\n\r\f\v]`); `\s` also matches `\n`. -/
def isSpaceChar (c : Char) : Bool :=
  c = ' ' || c = '\t' || c = '\n' || c = '\r' || c = '\x0b' || c = '\x0c'

/-- Length of the run of characters satisfying `pred` starting at `i`. -/
def runLen (pred : Char → Bool) (s : List Char) (i : Nat) : Nat :=
  ((s.drop i).takeWhile pred).length

/-- Position of the end of the line containing `i` (the next `'\n'` at
or after `i`, or the end of the text). -/
def lineEndFrom (s : List Char) (i : Nat) : Nat :=
  i + ((s.drop i).takeWhile (fun c => c ≠ '\n')).length

/-- `^` under `re.MULTILINE`: position 0 or just after a newline. -/
def isLineStart (s : List Char) (i : Nat) : Bool :=
  i == 0 || s.getD (i - 1) ' ' == '\n'

/-- Largest index `t` with `lo ≤ t < s.length` and `s[t] ≠ '\n'`. -/
def lastNonNlFrom (s : List Char) (lo : Nat) : Option Nat :=
  (List.range s.length).foldl
    (fun acc t => if lo ≤ t ∧ s.getD t '\n' ≠ '\n' then some t else acc) none

/-- One attempted match of `HEADER_PATTERN = ^(#{1,6})\s+(.+)$`
(`re.MULTILINE`) at line-start position `p`, returning the match end.
Faithful to Python backtracking semantics:

* `#{1,6}`: with `h` the length of the hash run at `p`, a match needs
  `1 ≤ h ≤ 6` — if `h > 6` every retry with fewer hashes still faces a
  `#` where `\s` is required, so the attempt fails;
* `\s+`: at least one whitespace character (newlines included) must
  follow the hashes;
* greedy `\s+` then `.+$`: let `w` be the end of the maximal whitespace
  run after the hashes.  If `w < len`, `s[w]` is non-whitespace (hence
  not a newline), `.+` consumes to the end of that line and the match
  ends there (`$` is zero-width).  If the whitespace reaches the end of
  the text, backtracking hands trailing characters back to `.+`, which
  must start at the last non-newline character at an index ≥ `q+1`
  (everything after it is newlines); the match then ends at the
  following newline or at the end of the text.  If no such character
  exists the attempt fails. -/
def headerMatchAt (s : List Char) (p : Nat) : Option Nat :=
  let h := runLen (fun c => c = '#') s p
  if h = 0 ∨ 6 < h then none
  else
    let q := p + h
    if q < s.length ∧ isSpaceChar (s.getD q ' ') then
      let w := q + runLen isSpaceChar s q
      if w < s.length then some (lineEndFrom s w)
      else
        match lastNonNlFrom s (q + 1) with
        | none => none
        | some t => some (lineEndFrom s t)
    else none

/-- `HEADER_PATTERN.finditer`: scan left to right, anchoring each
attempt at a line start; after a match, resume scanning at its end
(matches are non-overlapping).  `fuel` bounds the scan (`s.length + 1`
positions suffice since every step advances). -/
def findHeadersFrom (s : List Char) : Nat → Nat → List (Nat × Nat)
  | 0, _ => []
  | fuel + 1, i =>
      if s.length ≤ i then []
      else if isLineStart s i then
        match headerMatchAt s i with
        | some e => (i, e) :: findHeadersFrom s fuel e
        | none => findHeadersFrom s fuel (i + 1)
      else findHeadersFrom s fuel (i + 1)

/-- All `(start, end)` spans of `HEADER_PATTERN.finditer(text)`. -/
def findHeaders (s : List Char) : List (Nat × Nat) :=
  findHeadersFrom s (s.length + 1) 0

/-- `_split_by_characters`: fixed-width slices of `chunk_size`
characters.  `fuel` bounds the loop (`text.length` iterations suffice
for `chunk_size ≥ 1`, which `valid` guarantees at every call site). -/
def splitByCharsFuel (size : Nat) : Nat → List Char → Nat → List TextChunk
  | 0, _, _ => []
  | _, [], _ => []
  | fuel + 1, text@(_ :: _), offset =>
      let chunk_text := text.take size
      TextChunk.mk chunk_text offset (offset + chunk_text.length) ::
        splitByCharsFuel size fuel (text.drop size) (offset + size)

def split_by_characters (sp : RecursiveTextSplitter) (text : List Char)
    (offset : Nat) : List TextChunk :=
  splitByCharsFuel sp.chunk_size text.length text offset

/-- First index at which `sep` occurs in `s` (leftmost occurrence). -/
def findSeq (sep s : List Char) : Option Nat :=
  (List.range (s.length + 1)).find? (fun i => sep.isPrefixOf (s.drop i))

/-- Python `text.split(separator)` for a non-empty separator:
non-overlapping leftmost occurrences.  `fuel` bounds the recursion
(`s.length + 1` suffices; each step drops at least one character). -/
def splitOnSepFuel (sep : List Char) : Nat → List Char → List (List Char)
  | 0, s => [s]
  | fuel + 1, s =>
      match findSeq sep s with
      | none => [s]
      | some i => s.take i :: splitOnSepFuel sep fuel (s.drop (i + sep.length))

def splitOnSep (sep s : List Char) : List (List Char) :=
  splitOnSepFuel sep (s.length + 1) s

/-- The accumulation loop of `_split_by_separator`: greedily pack
consecutive pieces (separator re-attached to every piece but the last)
while the chunk stays within `chunk_size`; an oversized single piece is
character-split in place. -/
def sbsLoop (sp : RecursiveTextSplitter) (separator : List Char) :
    List (List Char) → List Char → Nat → List TextChunk → List TextChunk
  | [], current_chunk, current_start, chunks =>
      if current_chunk.isEmpty then chunks
      else chunks ++ [TextChunk.mk current_chunk current_start
        (current_start + current_chunk.length)]
  | split0 :: restSplits, current_chunk, current_start, chunks =>
      let split_ := if restSplits.isEmpty then split0 else split0 ++ separator
      let test_chunk := current_chunk ++ split_
      if test_chunk.length ≤ sp.chunk_size then
        sbsLoop sp separator restSplits test_chunk current_start chunks
      else
        let chunks1 := if current_chunk.isEmpty then chunks
          else chunks ++ [TextChunk.mk current_chunk current_start
            (current_start + current_chunk.length)]
        let current_start1 := if current_chunk.isEmpty then current_start
          else current_start + current_chunk.length
        if sp.chunk_size < split_.length then
          let sub_chunks := split_by_characters sp split_ current_start1
          let current_start2 := match sub_chunks.getLast? with
            | some c => c.end_char
            | none => current_start1
          sbsLoop sp separator restSplits [] current_start2
            (chunks1 ++ sub_chunks)
        else
          sbsLoop sp separator restSplits split_ current_start1 chunks1

/-- `_split_by_separator`. -/
def split_by_separator (sp : RecursiveTextSplitter) (text separator : List Char)
    (offset : Nat) : List TextChunk :=
  sbsLoop sp separator (splitOnSep separator text) [] offset []

/-- The `for separator in self.SEPARATORS` loop of `_split_recursive`:
the empty separator falls back to character splitting; a present
separator whose split produced chunks returns them; otherwise the next
separator is tried, with character splitting as the final fallback. -/
def trySeparators (sp : RecursiveTextSplitter) (text : List Char)
    (offset : Nat) : List (List Char) → List TextChunk
  | [] => split_by_characters sp text offset
  | sep :: rest =>
      if sep.isEmpty then split_by_characters sp text offset
      else if (findSeq sep text).isSome then
        let chunks := split_by_separator sp text sep offset
        if chunks.isEmpty then trySeparators sp text offset rest
        else chunks
      else trySeparators sp text offset rest

/-- `_split_recursive` (not actually recursive: oversized pieces are
character-split directly inside `_split_by_separator`). -/
def split_recursive (sp : RecursiveTextSplitter) (text : List Char)
    (offset : Nat) : List TextChunk :=
  if text.length ≤ sp.chunk_size then
    [TextChunk.mk text offset (offset + text.length)]
  else
    trySeparators sp text offset SEPARATORS

/-- The end of a header's section: the next header's start, or the end
of the text for the last header. -/
def sectionEnd (text : List Char) (rest : List (Nat × Nat)) : Nat :=
  match rest with
  | [] => text.length
  | h2 :: _ => h2.1

/-- The `for i, header_match in enumerate(headers)` loop of
`_split_with_headers`: each section runs from its header's start to the
next header's start (or the end of the text); a section within
`chunk_size` is kept whole, an oversized one is split recursively. -/
def headerSections (sp : RecursiveTextSplitter) (text : List Char) :
    List (Nat × Nat) → List TextChunk
  | [] => []
  | hdr :: rest =>
      (if (pySlice text hdr.1 (sectionEnd text rest)).length ≤ sp.chunk_size then
        [TextChunk.mk (pySlice text hdr.1 (sectionEnd text rest)) hdr.1
          (sectionEnd text rest)]
      else split_recursive sp (pySlice text hdr.1 (sectionEnd text rest)) hdr.1)
        ++ headerSections sp text rest

/-- `_split_with_headers`. -/
def split_with_headers (sp : RecursiveTextSplitter) (text : List Char) :
    List TextChunk :=
  match findHeaders text with
  | [] => split_recursive sp text 0
  | h0 :: hrest =>
      if 0 < h0.1 then
        split_recursive sp (text.take h0.1) 0
          ++ headerSections sp text (h0 :: hrest)
      else headerSections sp text (h0 :: hrest)

/-- `_apply_overlap`: every chunk after the first is extended backward
by `chunk_overlap` characters; Python's `max(0, start - overlap)` is
Nat truncated subtraction. -/
def apply_overlap (sp : RecursiveTextSplitter) (chunks : List TextChunk)
    (full_text : List Char) : List TextChunk :=
  if chunks.isEmpty || sp.chunk_overlap == 0 then chunks
  else
    match chunks with
    | [] => []
    | c0 :: rest =>
        c0 :: rest.map (fun chunk =>
          TextChunk.mk
            (pySlice full_text (chunk.start_char - sp.chunk_overlap)
              chunk.end_char)
            (chunk.start_char - sp.chunk_overlap) chunk.end_char)

/-- `RecursiveTextSplitter.split_text`. -/
def RecursiveTextSplitter.split_text (sp : RecursiveTextSplitter)
    (text : List Char) : List TextChunk :=
  if text.isEmpty then []
  else apply_overlap sp (split_with_headers sp text) text

/-! ## Size and position invariants of the pre-overlap chunks -/

/-- Every chunk produced before the overlap pass fits in `chunk_size`
and its span is at most `chunk_size` wide. -/
def chunkWithinSize (size : Nat) (c : TextChunk) : Prop :=
  c.text.length ≤ size ∧ c.end_char ≤ c.start_char + size

lemma splitByCharsFuel_within (size : Nat) :
    ∀ (fuel : Nat) (text : List Char) (offset : Nat),
      ∀ c ∈ splitByCharsFuel size fuel text offset, chunkWithinSize size c := by
  intro fuel
  induction fuel with
  | zero => intro text offset c hc; simp [splitByCharsFuel] at hc
  | succ n ih =>
      intro text offset c hc
      match text with
      | [] => simp [splitByCharsFuel] at hc
      | t :: ts =>
          rw [splitByCharsFuel] at hc
          rcases List.mem_cons.mp hc with rfl | hmem
          · constructor
            · simpa using List.length_take_le ..
            · simp only
              have := List.length_take_le size (t :: ts)
              omega
          · exact ih ((t :: ts).drop size) (offset + size) c hmem

lemma split_by_characters_within (sp : RecursiveTextSplitter) (text : List Char)
    (offset : Nat) :
    ∀ c ∈ split_by_characters sp text offset, chunkWithinSize sp.chunk_size c :=
  splitByCharsFuel_within sp.chunk_size text.length text offset

lemma sbsLoop_within (sp : RecursiveTextSplitter) (separator : List Char) :
    ∀ (splits : List (List Char)) (current : List Char) (cstart : Nat)
      (chunks : List TextChunk),
      (∀ c ∈ chunks, chunkWithinSize sp.chunk_size c) →
      current.length ≤ sp.chunk_size →
      ∀ c ∈ sbsLoop sp separator splits current cstart chunks,
        chunkWithinSize sp.chunk_size c := by
  intro splits
  induction splits with
  | nil =>
      intro current cstart chunks hchunks hcur c hc
      rw [sbsLoop] at hc
      by_cases hemp : current.isEmpty = true
      · rw [if_pos hemp] at hc; exact hchunks c hc
      · rw [if_neg hemp] at hc
        rcases List.mem_append.mp hc with h | h
        · exact hchunks c h
        · rcases List.mem_singleton.mp h with rfl
          exact ⟨hcur, by simp only; omega⟩
  | cons split0 restSplits ih =>
      intro current cstart chunks hchunks hcur c hc
      rw [sbsLoop] at hc
      by_cases htest : (current ++ (if restSplits.isEmpty then split0
          else split0 ++ separator)).length ≤ sp.chunk_size
      · rw [if_pos htest] at hc
        exact ih _ _ _ hchunks htest c hc
      · rw [if_neg htest] at hc
        have hchunks1 : ∀ x ∈ (if current.isEmpty = true then chunks
            else chunks ++ [TextChunk.mk current cstart
              (cstart + current.length)]),
            chunkWithinSize sp.chunk_size x := by
          by_cases hemp : current.isEmpty = true
          · rw [if_pos hemp]; exact hchunks
          · rw [if_neg hemp]
            intro x hx
            rcases List.mem_append.mp hx with h | h
            · exact hchunks x h
            · rcases List.mem_singleton.mp h with rfl
              exact ⟨hcur, by simp only; omega⟩
        by_cases hbig : sp.chunk_size < (if restSplits.isEmpty then split0
            else split0 ++ separator).length
        · rw [if_pos hbig] at hc
          refine ih _ _ _ ?_ (by simp) c hc
          intro x hx
          rcases List.mem_append.mp hx with h | h
          · exact hchunks1 x h
          · exact split_by_characters_within sp _ _ x h
        · rw [if_neg hbig] at hc
          exact ih _ _ _ hchunks1 (by omega) c hc

lemma split_by_separator_within (sp : RecursiveTextSplitter)
    (text separator : List Char) (offset : Nat) :
    ∀ c ∈ split_by_separator sp text separator offset,
      chunkWithinSize sp.chunk_size c :=
  sbsLoop_within sp separator (splitOnSep separator text) [] offset []
    (by simp) (by simp)

lemma trySeparators_within (sp : RecursiveTextSplitter) (text : List Char)
    (offset : Nat) :
    ∀ (seps : List (List Char)),
      ∀ c ∈ trySeparators sp text offset seps, chunkWithinSize sp.chunk_size c := by
  intro seps
  induction seps with
  | nil => exact fun c hc => split_by_characters_within sp text offset c hc
  | cons sep rest ih =>
      intro c hc
      rw [trySeparators] at hc
      by_cases hse : sep.isEmpty = true
      · rw [if_pos hse] at hc
        exact split_by_characters_within sp text offset c hc
      · rw [if_neg hse] at hc
        by_cases hin : (findSeq sep text).isSome = true
        · rw [if_pos hin] at hc
          by_cases hch : (split_by_separator sp text sep offset).isEmpty = true
          · rw [if_pos hch] at hc; exact ih c hc
          · rw [if_neg hch] at hc
            exact split_by_separator_within sp text sep offset c hc
        · rw [if_neg hin] at hc; exact ih c hc

lemma split_recursive_within (sp : RecursiveTextSplitter) (text : List Char)
    (offset : Nat) :
    ∀ c ∈ split_recursive sp text offset, chunkWithinSize sp.chunk_size c := by
  intro c hc
  rw [split_recursive] at hc
  by_cases hle : text.length ≤ sp.chunk_size
  · rw [if_pos hle] at hc
    rcases List.mem_singleton.mp hc with rfl
    exact ⟨hle, by simp only; omega⟩
  · rw [if_neg hle] at hc
    exact trySeparators_within sp text offset SEPARATORS c hc

lemma headerMatchAt_lt (s : List Char) (p e : Nat)
    (h : headerMatchAt s p = some e) : p < s.length := by
  unfold headerMatchAt at h
  by_cases h0 : runLen (fun c => c = '#') s p = 0 ∨ 6 < runLen (fun c => c = '#') s p
  · rw [if_pos h0] at h; exact absurd h (by simp)
  · rw [if_neg h0] at h
    by_cases hq : p + runLen (fun c => c = '#') s p < s.length ∧
        isSpaceChar (s.getD (p + runLen (fun c => c = '#') s p) ' ') = true
    · omega
    · rw [if_neg hq] at h; exact absurd h (by simp)

lemma findHeadersFrom_lt (s : List Char) :
    ∀ (fuel i : Nat), ∀ x ∈ findHeadersFrom s fuel i, x.1 < s.length := by
  intro fuel
  induction fuel with
  | zero => intro i x hx; simp [findHeadersFrom] at hx
  | succ n ih =>
      intro i x hx
      rw [findHeadersFrom] at hx
      by_cases hge : s.length ≤ i
      · rw [if_pos hge] at hx; simp at hx
      · rw [if_neg hge] at hx
        by_cases hls : isLineStart s i = true
        · rw [if_pos hls] at hx
          cases hm : headerMatchAt s i with
          | some e =>
              rw [hm] at hx
              rcases List.mem_cons.mp hx with rfl | hmem
              · exact headerMatchAt_lt s i e hm
              · exact ih e x hmem
          | none => rw [hm] at hx; exact ih (i + 1) x hx
        · rw [if_neg hls] at hx; exact ih (i + 1) x hx

lemma headerSections_within (sp : RecursiveTextSplitter) (text : List Char) :
    ∀ (hdrs : List (Nat × Nat)), (∀ x ∈ hdrs, x.1 < text.length) →
      ∀ c ∈ headerSections sp text hdrs, chunkWithinSize sp.chunk_size c := by
  intro hdrs
  induction hdrs with
  | nil => intro _ c hc; simp [headerSections] at hc
  | cons h0 rest ih =>
      intro hlt c hc
      rw [headerSections] at hc
      rcases List.mem_append.mp hc with h | h
      · have hend : sectionEnd text rest ≤ text.length := by
          match rest with
          | [] => exact le_rfl
          | h2 :: r2 =>
              exact le_of_lt (hlt h2 (List.mem_cons_of_mem _
                (List.mem_cons_self ..)))
        by_cases hsmall : (pySlice text h0.1 (sectionEnd text rest)).length ≤
            sp.chunk_size
        · rw [if_pos hsmall] at h
          rcases List.mem_singleton.mp h with rfl
          refine ⟨hsmall, ?_⟩
          simp only
          have hslice : (pySlice text h0.1 (sectionEnd text rest)).length =
              min (sectionEnd text rest - h0.1) (text.length - h0.1) := by
            simp [pySlice]
          omega
        · rw [if_neg hsmall] at h
          exact split_recursive_within sp _ h0.1 c h
      · exact ih (fun x hx => hlt x (List.mem_cons_of_mem _ hx)) c h

lemma split_with_headers_within (sp : RecursiveTextSplitter) (text : List Char) :
    ∀ c ∈ split_with_headers sp text, chunkWithinSize sp.chunk_size c := by
  intro c hc
  unfold split_with_headers at hc
  split at hc
  · exact split_recursive_within sp text 0 c hc
  · rename_i h0 hrest hh
    have hlt : ∀ x ∈ h0 :: hrest, x.1 < text.length := by
      rw [← hh]; exact findHeadersFrom_lt text (text.length + 1) 0
    by_cases hpos : 0 < h0.1
    · rw [if_pos hpos] at hc
      rcases List.mem_append.mp hc with h | h
      · exact split_recursive_within sp _ 0 c h
      · exact headerSections_within sp text (h0 :: hrest) hlt c h
    · rw [if_neg hpos] at hc
      exact headerSections_within sp text (h0 :: hrest) hlt c hc

lemma pySlice_length_le (s : List Char) (a b : Nat) :
    (pySlice s a b).length ≤ b - a := by
  simp [pySlice]

/-- C6.  For every input text and every constructible configuration
(`chunk_overlap < chunk_size`, enforced by the constructor), every
chunk returned by `RecursiveTextSplitter.split_text` has
`len(chunk.text) ≤ chunk_size + chunk_overlap`. -/
theorem split_text_chunk_size_bound (sp : RecursiveTextSplitter)
    (text : List Char) :
    ∀ c ∈ sp.split_text text,
      c.text.length ≤ sp.chunk_size + sp.chunk_overlap := by
  intro c hc
  rw [RecursiveTextSplitter.split_text] at hc
  by_cases hemp : text.isEmpty = true
  · rw [if_pos hemp] at hc; simp at hc
  · rw [if_neg hemp] at hc
    unfold apply_overlap at hc
    by_cases hid : ((split_with_headers sp text).isEmpty
        || sp.chunk_overlap == 0) = true
    · rw [if_pos hid] at hc
      exact le_trans (split_with_headers_within sp text c hc).1
        (Nat.le_add_right ..)
    · rw [if_neg hid] at hc
      split at hc
      · simp at hc
      · rename_i c0 rest hsw
        rcases List.mem_cons.mp hc with rfl | hmem
        · refine le_trans ?_ (Nat.le_add_right ..)
          exact (split_with_headers_within sp text c
            (by rw [hsw]; exact List.mem_cons_self ..)).1
        · obtain ⟨x, hx, hgx⟩ := List.mem_map.mp hmem
          have hok := split_with_headers_within sp text x
            (by rw [hsw]; exact List.mem_cons_of_mem c0 hx)
          rw [← hgx]
          have hsl := pySlice_length_le text (x.start_char - sp.chunk_overlap)
            x.end_char
          simp only
          obtain ⟨_, hend⟩ := hok
          omega

/-- Witness for C6 at a concrete splitter (size 10, overlap 9) and
text: the second, overlap-extended chunk has length 13 ≤ 10 + 9. -/
theorem split_text_chunk_size_bound_witness :
    (TextChunk.mk "aaaa bbbbbbbb".toList 0 13) ∈
      (RecursiveTextSplitter.mk 10 9 (by decide)).split_text
        "aaaa bbbbbbbb".toList ∧
    (TextChunk.mk "aaaa bbbbbbbb".toList 0 13).text.length ≤ 10 + 9 :=
  ⟨by decide,
   split_text_chunk_size_bound (RecursiveTextSplitter.mk 10 9 (by decide))
     "aaaa bbbbbbbb".toList (TextChunk.mk "aaaa bbbbbbbb".toList 0 13)
     (by decide)⟩

/-- C5 counterexample: with `chunk_size = 10`, `chunk_overlap = 9` and
text `"aaaa bbbbbbbb"`, the pre-overlap chunks start at 0 and 5, and
the overlap pass moves the second chunk's `start_char` to
`max(0, 5 - 9) = 0` — not to the claimed
`max(5 - 9, previous.start_char + 1) = 1`. -/
theorem overlap_prev_start_clamp_counterexample :
    ((RecursiveTextSplitter.mk 10 9 (by decide)).split_text
        "aaaa bbbbbbbb".toList).map (fun c => (c.start_char, c.end_char)) =
      [(0, 5), (0, 13)] ∧
    (split_with_headers (RecursiveTextSplitter.mk 10 9 (by decide))
        "aaaa bbbbbbbb".toList).map (fun c => (c.start_char, c.end_char)) =
      [(0, 5), (5, 13)] ∧
    (0 : Int) ≠ max ((5 : Int) - 9) ((0 : Int) + 1) := by
  exact ⟨by decide, by decide, by decide⟩

/-- C5 (amended).  The overlap post-pass sets, for each chunk after the
first, `start_char` to `max(0, pre-overlap start_char − chunk_overlap)`
— clamped at the start of the document (Nat truncated subtraction),
never at the previous chunk's `start_char + 1`. -/
theorem split_text_overlap_start_formula (sp : RecursiveTextSplitter)
    (text : List Char) (i : Nat) (hi : 1 ≤ i) :
    ((sp.split_text text)[i]?).map (fun c => c.start_char) =
      ((split_with_headers sp text)[i]?).map
        (fun c => c.start_char - sp.chunk_overlap) := by
  rw [RecursiveTextSplitter.split_text]
  by_cases hemp : text.isEmpty = true
  · rw [if_pos hemp]
    have htext : text = [] := List.isEmpty_iff.mp hemp
    subst htext
    have hsw : split_with_headers sp [] = [TextChunk.mk [] 0 0] := by
      simp [split_with_headers, findHeaders, findHeadersFrom, split_recursive]
    rw [hsw]
    match i, hi with
    | i + 1, _ => simp
  · rw [if_neg hemp]
    unfold apply_overlap
    by_cases hid : ((split_with_headers sp text).isEmpty
        || sp.chunk_overlap == 0) = true
    · rw [if_pos hid]
      rcases Bool.or_eq_true_iff.mp hid with h | h
      · have hsw : split_with_headers sp text = [] := List.isEmpty_iff.mp h
        rw [hsw]
        simp
      · have hov : sp.chunk_overlap = 0 := by simpa using h
        rw [hov]
        simp
    · rw [if_neg hid]
      split
      · rename_i hsw
        rw [hsw]
        simp
      · rename_i c0 rest hsw
        rw [hsw]
        match i, hi with
        | i + 1, _ =>
            simp only [List.getElem?_cons_succ, List.getElem?_map]
            cases rest[i]? <;> simp

/-- Witness for C5 (amended) at the same concrete splitter, text and
index 1. -/
theorem split_text_overlap_start_formula_witness :
    1 ≤ 1 ∧
    (((RecursiveTextSplitter.mk 10 9 (by decide)).split_text
        "aaaa bbbbbbbb".toList)[1]?).map (fun c => c.start_char) =
      ((split_with_headers (RecursiveTextSplitter.mk 10 9 (by decide))
          "aaaa bbbbbbbb".toList)[1]?).map
        (fun c => c.start_char - (RecursiveTextSplitter.mk 10 9
            (by decide)).chunk_overlap) :=
  ⟨le_rfl,
   split_text_overlap_start_formula (RecursiveTextSplitter.mk 10 9 (by decide))
     "aaaa bbbbbbbb".toList 1 le_rfl⟩

/-! # Markdown code extractor (`chunking/markdown_code_extractor.py`)

`FENCED_CODE_PATTERN = ^```(\w+)?\s*\n(.*?)^```\s*$` with
`re.MULTILINE | re.DOTALL`, scanned with `finditer`. -/

/-- The regex class `\w` (ASCII letters, digits, underscore). -/
def isWordChar (c : Char) : Bool :=
  c.isAlpha || c.isDigit || c = '_'

/-- Python `str.strip()` (whitespace at both ends removed). -/
def pyStrip (s : List Char) : List Char :=
  ((s.dropWhile isSpaceChar).reverse.dropWhile isSpaceChar).reverse

/-- One `finditer` match of the fenced-code pattern. -/
structure FencedMatch where
  mstart : Nat
  mend : Nat
  lang : List Char
  innerStart : Nat
  innerEnd : Nat
deriving Repr, DecidableEq

/-- Largest index `m` in `[lo, hi)` with `s[m] = '\n'`. -/
def lastNlIn (s : List Char) (lo hi : Nat) : Option Nat :=
  (List.range hi).foldl
    (fun acc t => if lo ≤ t ∧ s.getD t ' ' = '\n' then some t else acc) none

/-- A closing fence `^```\s*$` attempted at line-start `c`: after the
three backticks, greedy `\s*` ends either at the end of the text, or —
backtracking — just before the last newline inside the whitespace run
(the `$` of `re.MULTILINE` is zero-width before a newline, so the match
end excludes that newline); if the run ends mid-text without containing
a newline, the close fails. -/
def closeFenceAt (s : List Char) (c : Nat) : Option Nat :=
  if ("```".toList).isPrefixOf (s.drop c) then
    let k2 := c + 3 + runLen isSpaceChar s (c + 3)
    if k2 < s.length then lastNlIn s (c + 3) k2
    else some s.length
  else none

/-- Smallest line-start `c ≥ i` carrying a valid closing fence (the
lazy `(.*?)` takes the earliest close), returning `(c, matchEnd)`. -/
def findCloseFrom (s : List Char) : Nat → Nat → Option (Nat × Nat)
  | 0, _ => none
  | fuel + 1, i =>
      if s.length < i then none
      else if isLineStart s i then
        match closeFenceAt s i with
        | some e => some (i, e)
        | none => findCloseFrom s fuel (i + 1)
      else findCloseFrom s fuel (i + 1)

/-- One attempted fenced-block match at line-start `p`.  Derivation
from the regex under Python backtracking:
* the opening line is three backticks, an optional maximal `\w` run
  (`(\w+)?` — giving back word characters never helps, since the next
  position would hold a word character where `\s` or `\n` is required),
  then `\s*\n` — greedy `\s*` backtracks so that the character after it
  is a newline, i.e. the group ends at the last newline of the
  whitespace run following the language word (a run with no newline
  fails the opening);
* `(.*?)` is lazy and, under DOTALL, unconstrained, so the match closes
  at the earliest valid closing fence at or after the inner start; a
  closing candidate inside the whitespace run is impossible (a backtick
  is not whitespace), so the greedy choice above never needs revisiting. -/
def fencedMatchAt (s : List Char) (p : Nat) : Option FencedMatch :=
  if ("```".toList).isPrefixOf (s.drop p) then
    match lastNlIn s (p + 3 + runLen isWordChar s (p + 3))
        (p + 3 + runLen isWordChar s (p + 3) +
          runLen isSpaceChar s (p + 3 + runLen isWordChar s (p + 3))) with
    | none => none
    | some m =>
        match findCloseFrom s (s.length + 1 - (m + 1)) (m + 1) with
        | none => none
        | some (c, e) =>
            some (FencedMatch.mk p e
              (pySlice s (p + 3) (p + 3 + runLen isWordChar s (p + 3)))
              (m + 1) c)
  else none

/-- `FENCED_CODE_PATTERN.finditer`: left-to-right scan over line
starts; scanning resumes at each match's end. -/
def findFencedFrom (s : List Char) : Nat → Nat → List FencedMatch
  | 0, _ => []
  | fuel + 1, i =>
      if s.length ≤ i then []
      else if isLineStart s i then
        match fencedMatchAt s i with
        | some m => m :: findFencedFrom s fuel m.mend
        | none => findFencedFrom s fuel (i + 1)
      else findFencedFrom s fuel (i + 1)

def findFenced (s : List Char) : List FencedMatch :=
  findFencedFrom s (s.length + 1) 0

/-- `MarkdownSegment` dataclass. -/
structure MarkdownSegment where
  content : List Char
  is_code : Bool
  language : String
  start_pos : Nat
  end_pos : Nat
deriving Repr, DecidableEq

/-- The `for match in FENCED_CODE_PATTERN.finditer(markdown)` loop of
`extract_segments`, threading `last_end`: a stripped, non-empty text
segment before each code block, then the stripped inner code as a code
segment when non-empty. -/
def segLoop (markdown : List Char) : List FencedMatch → Nat → List MarkdownSegment
  | [], _ => []
  | m :: rest, last_end =>
      (if last_end < m.mstart then
        (if (pyStrip (pySlice markdown last_end m.mstart)).isEmpty then []
         else [MarkdownSegment.mk (pyStrip (pySlice markdown last_end m.mstart))
           false "markdown" last_end m.mstart])
       else []) ++
      (if (pyStrip (pySlice markdown m.innerStart m.innerEnd)).isEmpty then []
       else [MarkdownSegment.mk (pyStrip (pySlice markdown m.innerStart m.innerEnd))
         true (if m.lang.isEmpty then "unknown" else String.mk m.lang)
         m.mstart m.mend]) ++
      segLoop markdown rest m.mend

/-- `last_end` after the loop: the end of the last match, or 0. -/
def lastEndOf (ms : List FencedMatch) : Nat :=
  match ms.getLast? with
  | none => 0
  | some m => m.mend

/-- `MarkdownCodeExtractor.extract_segments`. -/
def extract_segments (markdown : List Char) : List MarkdownSegment :=
  if markdown.isEmpty then []
  else
    let ms := findFenced markdown
    let segments := segLoop markdown ms 0 ++
      (if lastEndOf ms < markdown.length then
        (if (pyStrip (pySlice markdown (lastEndOf ms) markdown.length)).isEmpty
         then []
         else [MarkdownSegment.mk
           (pyStrip (pySlice markdown (lastEndOf ms) markdown.length))
           false "markdown" (lastEndOf ms) markdown.length])
       else [])
    if segments.isEmpty then
      [MarkdownSegment.mk markdown false "markdown" 0 markdown.length]
    else segments

/-! ## Offsets of extracted segments -/

lemma pySlice_zero_length (s : List Char) : pySlice s 0 s.length = s := by
  simp [pySlice]

lemma pyStrip_infix_self (l : List Char) : pyStrip l <:+: l := by
  obtain ⟨u, hu⟩ := List.dropWhile_suffix (l := l) isSpaceChar
  have h1 : ((l.dropWhile isSpaceChar).reverse.dropWhile isSpaceChar) <:+
      (l.dropWhile isSpaceChar).reverse :=
    List.dropWhile_suffix isSpaceChar
  have h2 : ((l.dropWhile isSpaceChar).reverse.dropWhile isSpaceChar).reverse <+:
      l.dropWhile isSpaceChar := by
    refine List.reverse_suffix.mp ?_
    rw [List.reverse_reverse]
    exact h1
  obtain ⟨t, ht⟩ := h2
  refine ⟨u, t, ?_⟩
  rw [show pyStrip l =
    ((l.dropWhile isSpaceChar).reverse.dropWhile isSpaceChar).reverse from rfl,
    List.append_assoc, ht, hu]

lemma infix_to_slice (md : List Char) (a b : Nat) (hab : a ≤ b) (t : List Char)
    (h : t <:+: pySlice md a b) :
    ∃ a2 b2, a ≤ a2 ∧ b2 ≤ b ∧ t = pySlice md a2 b2 := by
  obtain ⟨s, u, hsu⟩ := h
  have hslen : (pySlice md a b).length ≤ b - a := pySlice_length_le md a b
  have hlen : s.length + t.length ≤ (pySlice md a b).length := by
    rw [← hsu]
    simp only [List.length_append]
    omega
  refine ⟨a + s.length, a + s.length + t.length, by omega, by omega, ?_⟩
  have hmd : md.drop a = s ++ (t ++ (u ++ (md.drop a).drop (b - a))) := by
    conv_lhs => rw [← List.take_append_drop (b - a) (md.drop a)]
    rw [show (md.drop a).take (b - a) = pySlice md a b from rfl, ← hsu]
    simp [List.append_assoc]
  show t = (md.drop (a + s.length)).take (a + s.length + t.length - (a + s.length))
  rw [show a + s.length + t.length - (a + s.length) = t.length by omega,
    show md.drop (a + s.length) = (md.drop a).drop s.length by
      simp [List.drop_drop, Nat.add_comm],
    hmd, List.drop_left]
  exact (List.take_left ..).symm

lemma stripped_slice_within (md : List Char) (a b lo hi : Nat)
    (hlo : lo ≤ a) (hhi : b ≤ hi) (hab : a ≤ b) :
    ∃ a2 b2, lo ≤ a2 ∧ b2 ≤ hi ∧
      pyStrip (pySlice md a b) = pySlice md a2 b2 := by
  obtain ⟨a2, b2, h1, h2, h3⟩ :=
    infix_to_slice md a b hab (pyStrip (pySlice md a b))
      (pyStrip_infix_self (pySlice md a b))
  exact ⟨a2, b2, by omega, by omega, h3⟩

lemma foldl_lastNl_ge (s : List Char) (lo : Nat) :
    ∀ (l : List Nat) (acc : Option Nat),
      (∀ u, acc = some u → lo ≤ u) →
      ∀ t, l.foldl (fun acc t => if lo ≤ t ∧ s.getD t ' ' = '\n' then some t
        else acc) acc = some t → lo ≤ t := by
  intro l
  induction l with
  | nil => intro acc hacc t h; exact hacc t h
  | cons x xs ih =>
      intro acc hacc t h
      rw [List.foldl_cons] at h
      by_cases hx : lo ≤ x ∧ s.getD x ' ' = '\n'
      · refine ih _ ?_ t h
        intro u hu
        rw [if_pos hx] at hu
        injection hu with hu
        omega
      · rw [if_neg hx] at h
        exact ih acc hacc t h

lemma lastNlIn_ge (s : List Char) (lo hi t : Nat) (h : lastNlIn s lo hi = some t) :
    lo ≤ t := by
  unfold lastNlIn at h
  exact foldl_lastNl_ge s lo (List.range hi) none (by simp) t h

lemma closeFenceAt_le (s : List Char) (c e : Nat)
    (h : closeFenceAt s c = some e) : c ≤ e := by
  unfold closeFenceAt at h
  by_cases hpre : (("```".toList).isPrefixOf (s.drop c)) = true
  · rw [if_pos hpre] at h
    by_cases hk : c + 3 + runLen isSpaceChar s (c + 3) < s.length
    · rw [if_pos hk] at h
      have := lastNlIn_ge s (c + 3) _ e h
      omega
    · rw [if_neg hk] at h
      injection h with h2
      have hlen : 3 ≤ (s.drop c).length := by
        have := (List.isPrefixOf_iff_prefix.mp hpre).length_le
        simpa using this
      rw [List.length_drop] at hlen
      omega
  · rw [if_neg hpre] at h
    exact absurd h (by simp)

lemma findCloseFrom_spec (s : List Char) :
    ∀ (fuel i : Nat) (c e : Nat), findCloseFrom s fuel i = some (c, e) →
      i ≤ c ∧ closeFenceAt s c = some e := by
  intro fuel
  induction fuel with
  | zero => intro i c e h; simp [findCloseFrom] at h
  | succ n ih =>
      intro i c e h
      rw [findCloseFrom] at h
      by_cases hlt : s.length < i
      · rw [if_pos hlt] at h; exact absurd h (by simp)
      · rw [if_neg hlt] at h
        by_cases hls : isLineStart s i = true
        · rw [if_pos hls] at h
          cases hm : closeFenceAt s i with
          | some e2 =>
              rw [hm] at h
              injection h with h2
              obtain ⟨rfl, rfl⟩ := Prod.mk.injEq .. ▸ And.intro
                (congrArg Prod.fst h2) (congrArg Prod.snd h2)
              exact ⟨le_rfl, hm⟩
          | none =>
              rw [hm] at h
              have := ih (i + 1) c e h
              exact ⟨by omega, this.2⟩
        · rw [if_neg hls] at h
          have := ih (i + 1) c e h
          exact ⟨by omega, this.2⟩

lemma fencedMatchAt_spec (s : List Char) (p : Nat) (m : FencedMatch)
    (h : fencedMatchAt s p = some m) :
    m.mstart ≤ m.innerStart ∧ m.innerStart ≤ m.innerEnd ∧
      m.innerEnd ≤ m.mend := by
  unfold fencedMatchAt at h
  split at h
  · split at h
    · exact absurd h (by simp)
    · rename_i mNl hnl
      split at h
      · exact absurd h (by simp)
      · rename_i c e hcl
        injection h with h2
        have hspec := findCloseFrom_spec s _ _ c e hcl
        have hce := closeFenceAt_le s c e hspec.2
        have hge := lastNlIn_ge s _ _ mNl hnl
        rw [← h2]
        refine ⟨by simp only; omega, by simp only; omega, by simp only; omega⟩
  · exact absurd h (by simp)
lemma findFencedFrom_mem (s : List Char) :
    ∀ (fuel i : Nat), ∀ m ∈ findFencedFrom s fuel i,
      ∃ p, fencedMatchAt s p = some m := by
  intro fuel
  induction fuel with
  | zero => intro i m hm; simp [findFencedFrom] at hm
  | succ n ih =>
      intro i m hm
      rw [findFencedFrom] at hm
      by_cases hge : s.length ≤ i
      · rw [if_pos hge] at hm; simp at hm
      · rw [if_neg hge] at hm
        by_cases hls : isLineStart s i = true
        · rw [if_pos hls] at hm
          cases hma : fencedMatchAt s i with
          | some m2 =>
              rw [hma] at hm
              rcases List.mem_cons.mp hm with rfl | hmem
              · exact ⟨i, hma⟩
              · exact ih m2.mend m hmem
          | none => rw [hma] at hm; exact ih (i + 1) m hm
        · rw [if_neg hls] at hm; exact ih (i + 1) m hm

lemma segLoop_content (markdown : List Char) :
    ∀ (ms : List FencedMatch) (last_end : Nat),
      (∀ m ∈ ms, ∃ p, fencedMatchAt markdown p = some m) →
      ∀ seg ∈ segLoop markdown ms last_end,
        ∃ a b, seg.start_pos ≤ a ∧ b ≤ seg.end_pos ∧
          seg.content = pySlice markdown a b := by
  intro ms
  induction ms with
  | nil => intro last_end _ seg hseg; simp [segLoop] at hseg
  | cons m rest ih =>
      intro last_end hwf seg hseg
      rw [segLoop] at hseg
      obtain ⟨p, hp⟩ := hwf m (List.mem_cons_self ..)
      obtain ⟨h1, h2, h3⟩ := fencedMatchAt_spec markdown p m hp
      rcases List.mem_append.mp hseg with hseg1 | hsegr
      · rcases List.mem_append.mp hseg1 with htext | hcode
        · by_cases hlt : last_end < m.mstart
          · rw [if_pos hlt] at htext
            by_cases hemp2 : (pyStrip (pySlice markdown last_end m.mstart)).isEmpty
              = true
            · rw [if_pos hemp2] at htext; simp at htext
            · rw [if_neg hemp2] at htext
              rcases List.mem_singleton.mp htext with rfl
              exact stripped_slice_within markdown last_end m.mstart last_end
                m.mstart le_rfl le_rfl (by omega)
          · rw [if_neg hlt] at htext; simp at htext
        · by_cases hemp2 : (pyStrip (pySlice markdown m.innerStart m.innerEnd)).isEmpty
            = true
          · rw [if_pos hemp2] at hcode; simp at hcode
          · rw [if_neg hemp2] at hcode
            rcases List.mem_singleton.mp hcode with rfl
            exact stripped_slice_within markdown m.innerStart m.innerEnd
              m.mstart m.mend h1 h3 h2
      · exact ih m.mend (fun x hx => hwf x (List.mem_cons_of_mem m hx)) seg hsegr

/-- C7 counterexample: on `"intro\n```py\ncode\n```\nafter"` the code
segment's content is the stripped inner code `"code"`, not the slice
`markdown[6:20)` (which still carries the fences), and the text
segments are stripped as well. -/
theorem extract_segments_slice_counterexample :
    ((extract_segments "intro\n```py\ncode\n```\nafter".toList).map
      (fun s => (String.mk s.content, s.start_pos, s.end_pos))) =
      [("intro", 0, 6), ("code", 6, 20), ("after", 20, 26)] ∧
    "code".toList ≠ pySlice "intro\n```py\ncode\n```\nafter".toList 6 20 := by
  exact ⟨by decide, by decide⟩

/-- C7 (amended).  Every segment returned by `extract_segments` has its
content inside its recorded offsets: the content is a contiguous
substring of the original markdown lying within `[start_pos, end_pos)`
— for text segments the strip of `markdown[start_pos:end_pos]`, for
code segments the strip of the fenced block's inner code, and for the
no-fence fallback the whole text. -/
theorem extract_segments_content_within_offsets (markdown : List Char) :
    ∀ seg ∈ extract_segments markdown,
      ∃ a b, seg.start_pos ≤ a ∧ b ≤ seg.end_pos ∧
        seg.content = pySlice markdown a b := by
  intro seg hseg
  rw [extract_segments] at hseg
  by_cases hemp : markdown.isEmpty = true
  · rw [if_pos hemp] at hseg; simp at hseg
  · rw [if_neg hemp] at hseg
    by_cases hsegs : (segLoop markdown (findFenced markdown) 0 ++
        (if lastEndOf (findFenced markdown) < markdown.length then
          (if (pyStrip (pySlice markdown (lastEndOf (findFenced markdown))
              markdown.length)).isEmpty = true then []
           else [MarkdownSegment.mk
             (pyStrip (pySlice markdown (lastEndOf (findFenced markdown))
               markdown.length))
             false "markdown" (lastEndOf (findFenced markdown))
             markdown.length])
         else [])).isEmpty = true
    · rw [if_pos hsegs] at hseg
      rcases List.mem_singleton.mp hseg with rfl
      exact ⟨0, markdown.length, le_rfl, le_rfl,
        (pySlice_zero_length markdown).symm⟩
    · rw [if_neg hsegs] at hseg
      rcases List.mem_append.mp hseg with hloop | htail
      · exact segLoop_content markdown (findFenced markdown) 0
          (findFencedFrom_mem markdown (markdown.length + 1) 0) seg hloop
      · by_cases hlt : lastEndOf (findFenced markdown) < markdown.length
        · rw [if_pos hlt] at htail
          by_cases hemp2 : (pyStrip (pySlice markdown
              (lastEndOf (findFenced markdown)) markdown.length)).isEmpty = true
          · rw [if_pos hemp2] at htail; simp at htail
          · rw [if_neg hemp2] at htail
            rcases List.mem_singleton.mp htail with rfl
            exact stripped_slice_within markdown _ markdown.length _
              markdown.length le_rfl le_rfl (by omega)
        · rw [if_neg hlt] at htail; simp at htail

/-- Witness for C7 (amended) at the concrete markdown above: the code
segment `"code"` equals `markdown[12:16)`, inside its offsets `[6,20)`. -/
theorem extract_segments_content_within_offsets_witness :
    (MarkdownSegment.mk "code".toList true "py" 6 20) ∈
        extract_segments "intro\n```py\ncode\n```\nafter".toList ∧
      ∃ a b, 6 ≤ a ∧ b ≤ 20 ∧
        "code".toList = pySlice "intro\n```py\ncode\n```\nafter".toList a b :=
  ⟨by decide,
   extract_segments_content_within_offsets
     "intro\n```py\ncode\n```\nafter".toList
     (MarkdownSegment.mk "code".toList true "py" 6 20) (by decide)⟩

/-! # Code detector (`chunking/code_detector.py`)

The heuristic patterns are Python regexes searched with `re.search`
(`re.MULTILINE`, plus `re.IGNORECASE` for the language patterns).  Only
existence of a match matters to the detector, so greedy/lazy
distinctions are irrelevant and the patterns are embedded as a small
regex AST with an all-end-positions matcher.  Every star/plus in these
patterns ranges over a single character class, so repetition is encoded
by class runs.  Each pattern value below carries its source regex in a
comment. -/

/-- A character-class atom: a literal character, `\w`, `\s` or `\d`. -/
inductive CAtom where
  | ch (c : Char)
  | word
  | space
  | digit
deriving Repr, DecidableEq

/-- `re.IGNORECASE`-aware character comparison. -/
def eqCh (ic : Bool) (a b : Char) : Bool :=
  if ic then a.toLower == b.toLower else a == b

def atomMatch (ic : Bool) (a : CAtom) (c : Char) : Bool :=
  match a with
  | .ch c0 => eqCh ic c0 c
  | .word => isWordChar c
  | .space => isSpaceChar c
  | .digit => c.isDigit

/-- Membership in a (possibly negated) character class. -/
def clsMatch (ic : Bool) (neg : Bool) (atoms : List CAtom) (c : Char) : Bool :=
  if neg then !(atoms.any (fun a => atomMatch ic a c))
  else atoms.any (fun a => atomMatch ic a c)

/-- Regex AST covering the detector's patterns.  `starC`/`plusC` are
star/plus over one character class; `bol`/`eol` are `^`/`$` under
`re.MULTILINE`; `wb` is `\b`; `la` is lookahead `(?=...)`. -/
inductive Rx where
  | eps
  | lit (c : Char)
  | cls (neg : Bool) (atoms : List CAtom)
  | starC (neg : Bool) (atoms : List CAtom)
  | plusC (neg : Bool) (atoms : List CAtom)
  | seq (a b : Rx)
  | alt (a b : Rx)
  | opt (a : Rx)
  | bol
  | eol
  | wb
  | la (a : Rx)
deriving Repr

/-- Is the character at `i` (if any) a word character? -/
def wordAt (s : List Char) (i : Nat) : Bool :=
  decide (i < s.length) && isWordChar (s.getD i ' ')

/-- All end positions of a match of `rx` starting at `i`. -/
def rxEnds (ic : Bool) (s : List Char) : Rx → Nat → List Nat
  | .eps, i => [i]
  | .lit c, i =>
      if decide (i < s.length) && eqCh ic c (s.getD i ' ') then [i + 1] else []
  | .cls neg atoms, i =>
      if decide (i < s.length) && clsMatch ic neg atoms (s.getD i ' ') then
        [i + 1]
      else []
  | .starC neg atoms, i =>
      (List.range (runLen (clsMatch ic neg atoms) s i + 1)).map (i + ·)
  | .plusC neg atoms, i =>
      (List.range (runLen (clsMatch ic neg atoms) s i)).map (i + 1 + ·)
  | .seq a b, i => (rxEnds ic s a i).bind (rxEnds ic s b)
  | .alt a b, i => rxEnds ic s a i ++ rxEnds ic s b i
  | .opt a, i => i :: rxEnds ic s a i
  | .bol, i => if isLineStart s i then [i] else []
  | .eol, i => if i = s.length ∨ s.getD i ' ' = '\n' then [i] else []
  | .wb, i => if wordAt s (i - 1) && decide (0 < i) != wordAt s i then [i] else []
  | .la a, i => if (rxEnds ic s a i).isEmpty then [] else [i]

/-- `re.search(pattern, text, flags)` — does any start position admit a
match? -/
def reSearch (ic : Bool) (rx : Rx) (s : List Char) : Bool :=
  (List.range (s.length + 1)).any (fun i => !(rxEnds ic s rx i).isEmpty)

/-- A sequence of regex pieces. -/
def rxSeq (l : List Rx) : Rx := l.foldr .seq .eps

/-- A sequence of literal characters. -/
def rxStr (cs : List Char) : Rx := rxSeq (cs.map .lit)

/-- `\s*`, `\s+`, `\w+`, `.` (no DOTALL: anything but a newline). -/
def rxWs0 : Rx := .starC false [.space]
def rxWs1 : Rx := .plusC false [.space]
def rxW1 : Rx := .plusC false [.word]
def rxAny0 : Rx := .starC true [.ch '\n']

/-- The `CodeDetector.Language` enum of `code_detector.py`. -/
inductive CodeDetector.Language where
  | python | javascript | typescript | java | go | rust | c | cpp | csharp
  | php | ruby | swift | kotlin | scala | r | shell | sql | html | css
  | markdown | unknown
deriving Repr, DecidableEq

/-- The string value of each `CodeDetector.Language` member. -/
def CodeDetector.Language.value : CodeDetector.Language → String
  | .python => "python"
  | .javascript => "javascript"
  | .typescript => "typescript"
  | .java => "java"
  | .go => "go"
  | .rust => "rust"
  | .c => "c"
  | .cpp => "cpp"
  | .csharp => "csharp"
  | .php => "php"
  | .ruby => "ruby"
  | .swift => "swift"
  | .kotlin => "kotlin"
  | .scala => "scala"
  | .r => "r"
  | .shell => "shell"
  | .sql => "sql"
  | .html => "html"
  | .css => "css"
  | .markdown => "markdown"
  | .unknown => "unknown"

def allLanguages : List CodeDetector.Language :=
  [.python, .javascript, .typescript, .java, .go, .rust, .c, .cpp, .csharp,
   .php, .ruby, .swift, .kotlin, .scala, .r, .shell, .sql, .html, .css,
   .markdown, .unknown]

/-- `CodeDetector.Language(s)`: the member with value `s`, or `none` (Python raises
`ValueError`). -/
def languageOfString (s : String) : Option CodeDetector.Language :=
  allLanguages.find? (fun l => l.value == s)

/-- The detection-relevant entries of `DetectionResult.metadata` (a
Python dict; the keys the pipeline and the claims inspect are `method`
and `reason`; `pattern_matches` and `general_indicators` are kept for
exactness of the heuristic results, numeric tree-sitter metadata lives
behind the oracle). -/
structure DetectMeta where
  method : Option String
  reason : Option String
  pattern_matchCount : Option Nat
  general_indicators : Bool
deriving Repr, DecidableEq

/-- `DetectionResult` of `code_detector.py` (confidence is a Python
float in [0,1]; all values produced here are small dyadic/decimal
rationals, represented exactly in ℚ). -/
structure DetectionResult where
  is_code : Bool
  language : CodeDetector.Language
  confidence : ℚ
  metadata : DetectMeta
deriving Repr, DecidableEq

/-- Shorthand: word-start anchor `\b` followed by a keyword literal. -/
def rxKw (s : String) : Rx := .seq .wb (rxStr s.toList)

/-- `SYNTAX_PATTERNS` — each regex transcribed next to its AST. -/
def SYNTAX_PATTERNS : List (CodeDetector.Language × List Rx) :=
  [(.python,
    [rxSeq [rxKw "def", rxWs1, rxW1, rxWs0, .lit '('],          -- \bdef\s+\w+\s*\(
     rxSeq [rxKw "class", rxWs1, rxW1],                          -- \bclass\s+\w+
     rxSeq [rxKw "import", rxWs1, rxW1],                         -- \bimport\s+\w+
     rxSeq [rxKw "from", rxWs1, rxW1, rxWs1, rxStr "import".toList],  -- \bfrom\s+\w+\s+import
     rxSeq [.lit '@', rxW1, rxWs0, .lit '(']]),                  -- @\w+\s*\(
   (.javascript,
    [rxSeq [rxKw "function", rxWs1, rxW1, rxWs0, .lit '('],      -- \bfunction\s+\w+\s*\(
     rxSeq [rxKw "const", rxWs1, rxW1, rxWs0, .lit '='],         -- \bconst\s+\w+\s*=
     rxSeq [rxKw "let", rxWs1, rxW1, rxWs0, .lit '='],           -- \blet\s+\w+\s*=
     rxSeq [rxKw "var", rxWs1, rxW1, rxWs0, .lit '='],           -- \bvar\s+\w+\s*=
     rxStr "=>".toList,                                          -- =>
     rxSeq [rxKw "console", .lit '.', rxStr "log".toList, .lit '(']]),  -- \bconsole\.log\(
   (.typescript,
    [rxSeq [rxKw "interface", rxWs1, rxW1],                      -- \binterface\s+\w+
     rxSeq [rxKw "type", rxWs1, rxW1, rxWs0, .lit '='],          -- \btype\s+\w+\s*=
     -- :\s*\w+(\[\])?(?=\s*[=;,)])
     rxSeq [.lit ':', rxWs0, rxW1, .opt (rxStr "[]".toList),
            .la (rxSeq [rxWs0, .cls false [.ch '=', .ch ';', .ch ',', .ch ')']])],
     rxSeq [rxKw "as", rxWs1, rxW1]]),                           -- \bas\s+\w+
   (.java,
    [rxSeq [rxKw "public", rxWs1, rxStr "class".toList, rxWs1, rxW1],  -- \bpublic\s+class\s+\w+
     rxSeq [rxKw "private", rxWs1, rxW1],                        -- \bprivate\s+\w+
     rxSeq [rxKw "protected", rxWs1, rxW1],                      -- \bprotected\s+\w+
     rxSeq [rxKw "static", rxWs1, rxStr "void".toList, rxWs1, rxStr "main".toList],  -- \bstatic\s+void\s+main
     rxSeq [rxKw "package", rxWs1, .plusC false [.word, .ch '.'], .lit ';']]),  -- \bpackage\s+[\w.]+;
   (.go,
    [rxSeq [rxKw "func", rxWs1, rxW1, rxWs0, .lit '('],          -- \bfunc\s+\w+\s*\(
     rxSeq [rxKw "package", rxWs1, rxW1],                        -- \bpackage\s+\w+
     rxSeq [rxKw "type", rxWs1, rxW1, rxWs1, rxStr "struct".toList],  -- \btype\s+\w+\s+struct
     rxStr ":=".toList]),                                        -- :=
   (.rust,
    [rxSeq [rxKw "fn", rxWs1, rxW1, rxWs0, .lit '('],            -- \bfn\s+\w+\s*\(
     rxSeq [rxKw "let", rxWs1, rxStr "mut".toList, rxWs1, rxW1], -- \blet\s+mut\s+\w+
     rxSeq [rxKw "impl", rxWs1, rxW1],                           -- \bimpl\s+\w+
     rxSeq [rxKw "match", rxWs1, rxW1, rxWs0, .lit (Char.ofNat 123)]]),  -- \bmatch\s+\w+\s*\x7b
   (.c,
    [rxSeq [rxKw "int", rxWs1, rxStr "main".toList, rxWs0, .lit '('],  -- \bint\s+main\s*\(
     rxSeq [.lit '#', rxStr "include".toList, rxWs0, .lit '<',
            .plusC false [.word, .ch '.'], .lit '>'],            -- \#include\s*<[\w.]+>
     rxSeq [rxKw "struct", rxWs1, rxW1],                         -- \bstruct\s+\w+
     rxSeq [rxKw "void", rxWs1, rxW1, rxWs0, .lit '(']]),        -- \bvoid\s+\w+\s*\(
   (.cpp,
    [rxSeq [rxKw "class", rxWs1, rxW1],                          -- \bclass\s+\w+
     rxSeq [rxKw "template", rxWs0, .lit '<'],                   -- \btemplate\s*<
     rxSeq [rxKw "namespace", rxWs1, rxW1],                      -- \bnamespace\s+\w+
     rxStr "std::".toList]),                                     -- std::
   (.php,
    [rxStr "<?php".toList,                                       -- <\?php
     rxSeq [.lit '$', rxW1, rxWs0, .lit '='],                    -- \$\w+\s*=
     rxSeq [rxKw "function", rxWs1, rxW1, rxWs0, .lit '(']]),    -- \bfunction\s+\w+\s*\(
   (.ruby,
    [rxSeq [rxKw "def", rxWs1, rxW1],                            -- \bdef\s+\w+
     rxSeq [rxKw "class", rxWs1, rxW1],                          -- \bclass\s+\w+
     rxSeq [rxKw "end", .wb],                                    -- \bend\b
     rxSeq [.lit '@', rxW1]]),                                   -- @\w+
   (.sql,
    [rxSeq [rxKw "SELECT", rxWs1],                               -- \bSELECT\s+
     rxSeq [rxKw "FROM", rxWs1, rxW1],                           -- \bFROM\s+\w+
     rxSeq [rxKw "WHERE", rxWs1],                                -- \bWHERE\s+
     rxSeq [rxKw "INSERT", rxWs1, rxStr "INTO".toList],          -- \bINSERT\s+INTO
     rxSeq [rxKw "UPDATE", rxWs1, rxW1, rxWs1, rxStr "SET".toList]]),  -- \bUPDATE\s+\w+\s+SET
   (.shell,
    [rxSeq [.bol, .lit '#', .lit '!', rxStr "/bin/".toList,
            .alt (rxStr "bash".toList) (rxStr "sh".toList)],     -- ^\#\!/bin/(bash|sh)
     rxSeq [.lit '$', .opt (.lit (Char.ofNat 123)), rxW1,
            .opt (.lit (Char.ofNat 125))],                       -- \$\x7b?\w+\x7d?
     rxSeq [.lit '|', rxWs0, rxW1]])]                            -- \|\s*\w+

/-- `CODE_INDICATORS` — each regex transcribed next to its AST. -/
def CODE_INDICATORS : List Rx :=
  [.cls false [.ch (Char.ofNat 123), .ch (Char.ofNat 125), .ch '(', .ch ')', .ch ';'],  -- [\x7b\x7d();]
   rxSeq [.plusC false [.word], rxWs0, .lit '=', rxWs0,
          .plusC false [.word, .ch (Char.ofNat 34), .ch (Char.ofNat 39)]],  -- [\w]+\s*=\s*[\w"\x27]+
   rxSeq [.wb, .alt (rxStr "if".toList) (.alt (rxStr "else".toList)
          (.alt (rxStr "for".toList) (.alt (rxStr "while".toList)
           (rxStr "return".toList)))), .wb],  -- \b(if|else|for|while|return)\b
   rxSeq [.lit '/', .lit '*', rxAny0, .lit '*', .lit '/'],       -- /\*.*?\*/
   rxSeq [.lit '/', .lit '/', rxAny0, .eol]]                     -- //.*$

/-- Number of patterns in the list matching `text` (the detector counts
one per pattern with a `re.search` hit). -/
def patternHits (ic : Bool) (text : List Char) (patterns : List Rx) : Nat :=
  (patterns.filter (fun p => reSearch ic p text)).length

/-- symbol characters counted by `re.findall(r"[{}()\[\];,.]", text)` —
findall with a one-character class is a character count. -/
def symbolChars (text : List Char) : Nat :=
  text.countP (fun c =>
    [Char.ofNat 123, Char.ofNat 125, '(', ')', '[', ']', ';', ',', '.'].contains c)

/-! Float scores.  Every score constant in the detector is a multiple
of 0.05, every cap is `min(1.0, ...)`, and every threshold is a
multiple of 0.05, so the whole score calculus is carried out exactly in
integer hundredths and packaged as the rational `k/100` (`mkRat k 100`)
for the `confidence` field.  (Python's float additions of 0.15/0.3
introduce sub-1e-15 rounding noise around exact score values, e.g.
0.15+0.15 > 0.3 holds for floats; the idealised exact model is used
throughout and none of the verified properties sits on such a
boundary.)  Ratio tests `a/b > 0.1` and `a/b > 0.3` are stated by
cross-multiplication over ℕ. -/

/-- The scaled score of `_check_general_code_indicators` in hundredths:
0.15 per matching indicator, +0.2 for symbol ratio above 0.1, +0.15 for
indent ratio above 0.3, capped at 1.0.  Indicator searches run with
`re.MULTILINE` only, no `IGNORECASE`. -/
def generalScore100 (text : List Char) : Nat :=
  Nat.min 100
    (15 * patternHits false text CODE_INDICATORS
     + (if 0 < text.length ∧ text.length < 10 * symbolChars text then 20 else 0)
     + (if 3 * (splitOnSep ['\n'] text).length <
          10 * (splitOnSep ['\n'] text).countP
                (fun line => line.head? = some ' ' ∨ line.head? = some '\t')
        then 15 else 0))

/-- `_check_general_code_indicators` as the rational score. -/
def check_general_code_indicators (text : List Char) : ℚ :=
  mkRat (generalScore100 text) 100

/-- `_check_language_patterns` (searches use `MULTILINE | IGNORECASE`):
at least one pattern hit gives is_code with confidence
`min(1.0, matches * 0.3)`, none gives the not-code zero result. -/
def check_language_patterns (text : List Char) (language : CodeDetector.Language) :
    DetectionResult :=
  match (SYNTAX_PATTERNS.find? (fun lp => lp.1 == language)).map
      (fun lp => patternHits true text lp.2) with
  | some (m + 1) =>
      DetectionResult.mk true language (mkRat (Nat.min 100 (30 * (m + 1))) 100)
        (DetectMeta.mk (some "heuristic") none (some (m + 1)) false)
  | _ =>
      DetectionResult.mk false .unknown 0
        (DetectMeta.mk (some "heuristic") none none false)

/-- The best-scoring language of the `_detect_with_heuristics` main
loop: fold in dict insertion order keeping `(best_result, best_score)`;
an entry wins when it has at least one match and its score
`min(1.0, matches * 0.25)` strictly beats the running best. -/
def heurBest (text : List Char) : Option DetectionResult × ℚ :=
  SYNTAX_PATTERNS.foldl
    (fun acc lp =>
      if 0 < patternHits true text lp.2 ∧
         acc.2 < mkRat (Nat.min 100 (25 * patternHits true text lp.2)) 100 then
        (some (DetectionResult.mk true lp.1
                 (mkRat (Nat.min 100 (25 * patternHits true text lp.2)) 100)
                 (DetectMeta.mk (some "heuristic") none
                    (some (patternHits true text lp.2)) false)),
         mkRat (Nat.min 100 (25 * patternHits true text lp.2)) 100)
      else acc)
    (none, 0)

/-- Tail of `_detect_with_heuristics` after the hint shortcut: general
indicators fire only when no language scored, or the best score is
below 0.3; otherwise the best language result (or the 0.9-confidence
not-code result) is returned. -/
def heurMain (text : List Char) : DetectionResult :=
  if ((heurBest text).1.isNone ∨ (heurBest text).2 < mkRat 3 10) ∧
     mkRat 3 10 < check_general_code_indicators text then
    DetectionResult.mk true .unknown (check_general_code_indicators text)
      (DetectMeta.mk (some "heuristic") none none true)
  else
    match (heurBest text).1 with
    | some r => r
    | none =>
        DetectionResult.mk false .unknown (mkRat 9 10)
          (DetectMeta.mk (some "heuristic") (some "no_patterns_matched") none false)

/-- `_detect_with_heuristics`: an invalid or code-negative hint falls
through to the main loop. -/
def detect_with_heuristics (text : List Char) (hint_language : Option String) :
    DetectionResult :=
  match hint_language with
  | some h =>
      match languageOfString h.toLower with
      | some hl =>
          if (check_language_patterns text hl).is_code then
            check_language_patterns text hl
          else heurMain text
      | none => heurMain text
  | none => heurMain text

/-- `CodeDetector.detect`.  `tsDetect` is the `_detect_with_tree_sitter`
oracle (the tree-sitter C library is external to the repo);
`hasParsers` models `bool(self.parsers)`. -/
def CodeDetector.detect (enable_tree_sitter : Bool)
    (tsDetect : List Char → Option String → DetectionResult)
    (hasParsers : Bool)
    (text : List Char) (hint_language : Option String) : DetectionResult :=
  if text.isEmpty ∨ (pyStrip text).length < 10 then
    DetectionResult.mk false .unknown 0
      (DetectMeta.mk none (some "text_too_short") none false)
  else if enable_tree_sitter && hasParsers then
    if mkRat 1 2 < (tsDetect text hint_language).confidence then
      tsDetect text hint_language
    else detect_with_heuristics text hint_language
  else detect_with_heuristics text hint_language

/-- C8 (counterexample): the text made of an `a`, eight spaces and a
`b` has only 2 non-whitespace characters (fewer than 10), yet
`CodeDetector.detect` does NOT short-circuit: `len(text.strip())` is 10
(strip only removes leading/trailing whitespace), so heuristic
detection runs and returns confidence 0.9 with method `heuristic` —
not the claimed immediate `confidence 0.0` result. -/
theorem code_detector_short_text_counterexample :
    ("a        b".toList.countP (fun c => !(isSpaceChar c)) < 10) ∧
    CodeDetector.detect false
        (fun _ _ => DetectionResult.mk false .unknown 0
          (DetectMeta.mk none none none false))
        false "a        b".toList none =
      DetectionResult.mk false .unknown (mkRat 9 10)
        (DetectMeta.mk (some "heuristic") (some "no_patterns_matched") none false) ∧
    CodeDetector.detect false
        (fun _ _ => DetectionResult.mk false .unknown 0
          (DetectMeta.mk none none none false))
        false "a        b".toList none ≠
      DetectionResult.mk false .unknown 0
        (DetectMeta.mk none (some "text_too_short") none false) := by
  refine ⟨by decide, by decide, by decide⟩

/-- C8 (amended): `detect` short-circuits on `not text or
len(text.strip()) < 10` — empty text, or a STRIP length below 10 —
returning is_code = false, language = unknown, confidence = 0.0 and
reason `text_too_short`, for every tree-sitter configuration and
oracle, without consulting them. -/
theorem code_detector_short_strip_short_circuit
    (ets hp : Bool) (tsD : List Char → Option String → DetectionResult)
    (text : List Char) (hint : Option String)
    (h : text.isEmpty ∨ (pyStrip text).length < 10) :
    CodeDetector.detect ets tsD hp text hint =
      DetectionResult.mk false .unknown 0
        (DetectMeta.mk none (some "text_too_short") none false) := by
  unfold CodeDetector.detect
  rw [if_pos h]

theorem code_detector_short_strip_short_circuit_witness :
    CodeDetector.detect true
        (fun _ _ => DetectionResult.mk true .python 1
          (DetectMeta.mk (some "tree_sitter") none none false))
        true "hi".toList none =
      DetectionResult.mk false .unknown 0
        (DetectMeta.mk none (some "text_too_short") none false) :=
  code_detector_short_strip_short_circuit true true
    (fun _ _ => DetectionResult.mk true .python 1
      (DetectMeta.mk (some "tree_sitter") none none false))
    "hi".toList none (Or.inr (by decide))

/-! # Smart chunker (`chunking/smart_chunker.py`) -/

/-- `SmartChunker._is_markdown_with_code`:
three backquotes occur in the text, and also occur at a line start
other than position 0 (a newline immediately before). -/
def is_markdown_with_code (text : List Char) : Bool :=
  (findSeq "```".toList text).isSome && (findSeq "\n```".toList text).isSome

/-- The segment loop of `_chunk_markdown_with_code_extraction`,
threading the running `chunk_index` counter: a code segment's splits
become confidence-1.0 `coderank` chunks in the segment's language, a
text segment's splits become confidence-1.0 `gte` chunks tagged
`markdown`; offsets are rebased by the segment's `start_pos`; the
counter advances once per appended chunk (modelled by `enum`). -/
def mdSegChunks (sp : RecursiveTextSplitter) (source_path : String) :
    List MarkdownSegment → Nat → List Chunk
  | [], _ => []
  | seg :: rest, chunk_index =>
      if seg.is_code then
        ((sp.split_text seg.content).enum.map (fun p =>
          Chunk.mk p.2.text true seg.language
            (seg.start_pos + p.2.start_char) (seg.start_pos + p.2.end_char)
            (chunk_index + p.1) 1 source_path "coderank"))
        ++ mdSegChunks sp source_path rest
             (chunk_index + (sp.split_text seg.content).length)
      else
        ((sp.split_text seg.content).enum.map (fun p =>
          Chunk.mk p.2.text false "markdown"
            (seg.start_pos + p.2.start_char) (seg.start_pos + p.2.end_char)
            (chunk_index + p.1) 1 source_path "gte"))
        ++ mdSegChunks sp source_path rest
             (chunk_index + (sp.split_text seg.content).length)

/-- `SmartChunker._chunk_markdown_with_code_extraction`. -/
def chunk_markdown_with_code_extraction (sp : RecursiveTextSplitter)
    (text : List Char) (source_path : String) : List Chunk :=
  mdSegChunks sp source_path (extract_segments text) 0

/-- `SmartChunker.chunk_text`.  The chunker's detector configuration is
passed through to `CodeDetector.detect` (tree-sitter itself stays
behind the `tsDetect` oracle). -/
def SmartChunker.chunk_text (sp : RecursiveTextSplitter)
    (enable_tree_sitter : Bool)
    (tsDetect : List Char → Option String → DetectionResult)
    (hasParsers : Bool)
    (text : List Char) (source_path : String) (language_hint : Option String) :
    List Chunk :=
  if text.isEmpty then []
  else if is_markdown_with_code text then
    chunk_markdown_with_code_extraction sp text source_path
  else
    (sp.split_text text).enum.map (fun p =>
      match CodeDetector.detect enable_tree_sitter tsDetect hasParsers
          p.2.text language_hint with
      | d =>
          Chunk.mk p.2.text d.is_code d.language.value
            p.2.start_char p.2.end_char p.1 d.confidence source_path
            (if d.is_code then "coderank" else "gte"))

/-- Indexing an enum-map: the element at `k` is the image of `(k, l[k])`. -/
lemma getElem?_enum_map {α β : Type} (l : List α) (f : Nat × α → β) (k : Nat) :
    (l.enum.map f)[k]? = Option.map (fun a => f (k, a)) l[k]? := by
  rw [List.getElem?_map, List.getElem?_enum, Option.map_map]
  rfl

/-- Positions inside `mdSegChunks` carry `chunk_index = counter + position`. -/
lemma mdSegChunks_chunk_index (sp : RecursiveTextSplitter) (src : String) :
    ∀ (segs : List MarkdownSegment) (ci k : Nat) (c : Chunk),
      (mdSegChunks sp src segs ci)[k]? = some c → c.chunk_index = ci + k := by
  intro segs
  induction segs with
  | nil => intro ci k c h; simp [mdSegChunks] at h
  | cons seg rest ih =>
      intro ci k c h
      rw [mdSegChunks] at h
      by_cases hcode : seg.is_code
      · rw [if_pos hcode, List.getElem?_append] at h
        by_cases hk : k < ((sp.split_text seg.content).enum.map (fun p =>
            Chunk.mk p.2.text true seg.language
              (seg.start_pos + p.2.start_char) (seg.start_pos + p.2.end_char)
              (ci + p.1) 1 src "coderank")).length
        · rw [if_pos hk] at h
          rw [getElem?_enum_map] at h
          match htc : (sp.split_text seg.content)[k]? with
          | none => rw [htc] at h; simp at h
          | some tc =>
              rw [htc] at h
              simp only [Option.map_some'] at h
              cases h
              rfl
        · rw [if_neg hk] at h
          have := ih _ _ _ h
          simp only [List.length_map, List.enum_length] at hk this ⊢
          omega
      · rw [if_neg hcode, List.getElem?_append] at h
        by_cases hk : k < ((sp.split_text seg.content).enum.map (fun p =>
            Chunk.mk p.2.text false "markdown"
              (seg.start_pos + p.2.start_char) (seg.start_pos + p.2.end_char)
              (ci + p.1) 1 src "gte")).length
        · rw [if_pos hk] at h
          rw [getElem?_enum_map] at h
          match htc : (sp.split_text seg.content)[k]? with
          | none => rw [htc] at h; simp at h
          | some tc =>
              rw [htc] at h
              simp only [Option.map_some'] at h
              cases h
              rfl
        · rw [if_neg hk] at h
          have := ih _ _ _ h
          simp only [List.length_map, List.enum_length] at hk this ⊢
          omega

/-- C10: every chunk returned by `SmartChunker.chunk_text` — on the
markdown-with-code path and on the plain path, for any splitter
configuration, detector configuration and tree-sitter oracle — has
`chunk_index` equal to its position in the returned list, so the
stored-chunk id is keyed by list position. -/
theorem chunk_text_chunk_index_is_position (sp : RecursiveTextSplitter)
    (ets hp : Bool) (tsD : List Char → Option String → DetectionResult)
    (text : List Char) (src : String) (hint : Option String)
    (k : Nat) (c : Chunk)
    (h : (SmartChunker.chunk_text sp ets tsD hp text src hint)[k]? = some c) :
    c.chunk_index = k := by
  unfold SmartChunker.chunk_text at h
  by_cases he : text.isEmpty
  · rw [if_pos he] at h; simp at h
  · rw [if_neg he] at h
    by_cases hmd : is_markdown_with_code text
    · rw [if_pos hmd] at h
      simpa using mdSegChunks_chunk_index sp src _ 0 k c h
    · rw [if_neg hmd] at h
      rw [getElem?_enum_map] at h
      match htc : (sp.split_text text)[k]? with
      | none => rw [htc] at h; simp at h
      | some tc =>
          rw [htc] at h
          simp only [Option.map_some'] at h
          cases h
          rfl

theorem chunk_text_chunk_index_is_position_witness :
    (SmartChunker.chunk_text ⟨1000, 200, by decide⟩ false
        (fun _ _ => DetectionResult.mk false .unknown 0
          (DetectMeta.mk none none none false))
        false "intro\n```py\ncode\n```\nafter".toList "" none)[1]? =
      some (Chunk.mk "code".toList true "py" 6 10 1 1 "" "coderank") ∧
    (Chunk.mk "code".toList true "py" 6 10 1 1 "" "coderank").chunk_index = 1 :=
  ⟨by decide,
   chunk_text_chunk_index_is_position ⟨1000, 200, by decide⟩ false false
     (fun _ _ => DetectionResult.mk false .unknown 0
       (DetectMeta.mk none none none false))
     "intro\n```py\ncode\n```\nafter".toList "" none 1
     (Chunk.mk "code".toList true "py" 6 10 1 1 "" "coderank") (by decide)⟩

/-! # Recursive crawl strategy (`strategies/recursive.py`)

`crawl_recursive_with_progress` is an async BFS over depths.  External
effects are modelled as oracles: `crawl_many` (the crawl4ai streaming
crawler) yields, per `(depth, batch_idx, batch_urls)`, the list of
streamed `CrawlResult`s in order — a batch whose stream raises is
modelled by the stream simply ending early, which the `except` branch
turns into exactly "continue with the next batch"; `urlPath` is
stdlib `urlparse(url).path`; `extract_title` is the `<title>` regex
search on the HTML.  `cancel_event` is modelled as absent (when set the
coroutine raises `CancelledError` and returns nothing, so the returned
list does not exist).  Progress callbacks only report and are elided.
Python sets (`visited`, `current_urls`, `next_level_urls`) are
duplicate-free lists in insertion order; set iteration order is
arbitrary in CPython and none of the proved properties depends on it. -/

/-- The `result.markdown` object (`fit_markdown` / `raw_markdown`). -/
structure MarkdownPayload where
  fit_markdown : Option String
  raw_markdown : String
deriving Repr, DecidableEq

/-- The fields of a crawl4ai result the loop reads.  `internal_links`
holds the `href` of each entry of `result.links["internal"]` (the empty
string for a missing href, as in the code's `link_obj.get("href", "")`);
a falsy `result.html` is the empty string. -/
structure CrawlResult where
  url : String
  success : Bool
  markdown : Option MarkdownPayload
  html : String
  internal_links : List String
deriving Repr, DecidableEq

/-- `PageResult` (strategies/single_page.py) with the metadata dict's
two keys `depth` and `batch_idx` as fields. -/
structure PageResult where
  url : String
  source_url : Option String
  title : Option String
  html_content : String
  markdown_content : String
  word_count : Nat
  char_count : Nat
  discovered_links : List String
  md_depth : Nat
  md_batch_idx : Nat
deriving Repr, DecidableEq

/-- `normalize` inside the strategy: `urldefrag(url)[0]` — everything
before the first `#` (stdlib urldefrag splits at the first `#`). -/
def defragUrl (url : String) : String :=
  ⟨url.toList.takeWhile (fun c => c ≠ '#')⟩

/-- `url.split("//", 1)[-1].split("/", 1)[0]`: the part after the first
`//` (or the whole string), cut at the next `/`. -/
def domainOf (url : String) : String :=
  ⟨(match findSeq "//".toList url.toList with
    | some i => url.toList.drop (i + 2)
    | none => url.toList).takeWhile (fun c => c ≠ '/')⟩

/-- `_BINARY_EXTENSIONS` of helpers/url_handler.py. -/
def BINARY_EXTENSIONS : List String :=
  [".zip", ".tar", ".gz", ".tgz", ".bz2", ".xz", ".rar", ".7z", ".iso",
   ".png", ".jpg", ".jpeg", ".gif", ".bmp", ".tiff", ".svg", ".ico", ".webp",
   ".mp3", ".wav", ".aac", ".ogg", ".flac", ".m4a",
   ".mp4", ".avi", ".mov", ".mkv", ".webm", ".flv",
   ".pdf", ".doc", ".docx", ".ppt", ".pptx", ".xls", ".xlsx",
   ".exe", ".bin", ".dll", ".dmg", ".pkg", ".msi",
   ".ttf", ".otf", ".woff", ".woff2",
   ".dat", ".img", ".class", ".pyc", ".wasm"]

/-- `is_binary_file(url)`: does `urlparse(url).path.lower()` end in a
binary extension (`urlPath` is the stdlib-urlparse oracle)? -/
def is_binary_file (urlPath : String → String) (url : String) : Bool :=
  BINARY_EXTENSIONS.any
    (fun ext => ext.toList.isSuffixOf (urlPath url).toLower.toList)

/-- Python set insertion on a duplicate-free list. -/
def setInsert (l : List String) (s : String) : List String :=
  if s ∈ l then l else l ++ [s]

/-- `len(s.split())`: the number of maximal non-whitespace runs. -/
def pySplitWsCount (s : List Char) : Nat :=
  (s.foldl
    (fun p c =>
      if isSpaceChar c then ((false : Bool), p.2)
      else (true, if p.1 then p.2 else p.2 + 1))
    ((false : Bool), 0)).2

/-- `getattr(result.markdown, "fit_markdown", None) or
getattr(result.markdown, "raw_markdown", "")`: a falsy (absent or
empty) fit markdown falls back to the raw markdown. -/
def mdContentOf (md : MarkdownPayload) : String :=
  match md.fit_markdown with
  | some f => if f.isEmpty then md.raw_markdown else f
  | none => md.raw_markdown

/-- Loop-constant configuration of one `crawl_recursive_with_progress`
run (inputs, environment-derived batch size, oracles, and the
`seed_domains` set computed from the seeds). -/
structure CrawlCfg where
  crawl_many : Nat → Nat → List String → List CrawlResult
  urlPath : String → String
  extract_title : String → Option String
  max_depth : Nat
  max_pages : Int
  same_domain_only : Bool
  include_links : Bool
  batch_size : Nat
  seed_domains : List String

/-- The mutable loop state. -/
structure CrawlState where
  visited : List String
  results : List PageResult
  total_processed : Nat
  total_discovered : Nat
  next_level : List String
deriving Repr

/-- The inner `for link_obj in internal_links` loop, folding over
`(next_level_urls, total_discovered, page.discovered_links)`. -/
def linkFold (cfg : CrawlCfg) (visited : List String) :
    List String → List String × Nat × List String →
    List String × Nat × List String
  | [], acc => acc
  | link :: rest, acc =>
      if link.isEmpty then linkFold cfg visited rest acc
      else if defragUrl link ∈ visited ∨
              is_binary_file cfg.urlPath (defragUrl link) then
        linkFold cfg visited rest acc
      else if cfg.same_domain_only ∧ domainOf (defragUrl link) ∉ cfg.seed_domains then
        linkFold cfg visited rest acc
      else if defragUrl link ∈ acc.1 then linkFold cfg visited rest acc
      else linkFold cfg visited rest
        (acc.1 ++ [defragUrl link], acc.2.1 + 1, acc.2.2 ++ [defragUrl link])

/-- Link collection for one successful page: runs only when
`include_links` and `depth < max_depth - 1`, starting from the current
`next_level` set and discovery counter with no links on the page yet. -/
def linkOutcome (cfg : CrawlCfg) (depth : Nat) (visited : List String)
    (st : CrawlState) (r : CrawlResult) : List String × Nat × List String :=
  if cfg.include_links = true ∧ depth < cfg.max_depth - 1 then
    linkFold cfg visited r.internal_links (st.next_level, st.total_discovered, [])
  else (st.next_level, st.total_discovered, [])

/-- Processing of one streamed result (after the cancellation and
max_pages checks): mark visited and count it; skip it unless successful
with markdown; otherwise append its `PageResult` (whose
`discovered_links` the inner loop filled before the next iteration)
and absorb the link outcome. -/
def streamStep (cfg : CrawlCfg) (depth batch_idx : Nat) (r : CrawlResult)
    (st : CrawlState) : CrawlState :=
  if r.success = false ∨ r.markdown = none then
    CrawlState.mk (setInsert st.visited (defragUrl r.url)) st.results
      (st.total_processed + 1) st.total_discovered st.next_level
  else
    match r.markdown with
    | none =>
        CrawlState.mk (setInsert st.visited (defragUrl r.url)) st.results
          (st.total_processed + 1) st.total_discovered st.next_level
    | some md =>
        CrawlState.mk (setInsert st.visited (defragUrl r.url))
          (st.results ++
            [PageResult.mk r.url none
              (if r.html.isEmpty then none else cfg.extract_title r.html)
              r.html (mdContentOf md)
              (if (mdContentOf md).isEmpty then 0
               else pySplitWsCount (mdContentOf md).toList)
              (if (mdContentOf md).isEmpty then 0 else (mdContentOf md).length)
              (linkOutcome cfg depth
                (setInsert st.visited (defragUrl r.url)) st r).2.2
              depth batch_idx])
          (st.total_processed + 1)
          (linkOutcome cfg depth (setInsert st.visited (defragUrl r.url)) st r).2.1
          (linkOutcome cfg depth (setInsert st.visited (defragUrl r.url)) st r).1

/-- The `async for result in crawler.crawl_many(...)` loop: before each
result the max_pages cap (`max_pages > 0 and len(results) >= max_pages`)
breaks the stream. -/
def streamLoop (cfg : CrawlCfg) (depth batch_idx : Nat) :
    List CrawlResult → CrawlState → CrawlState
  | [], st => st
  | r :: rs, st =>
      if 0 < cfg.max_pages ∧ cfg.max_pages ≤ (st.results.length : Int) then st
      else streamLoop cfg depth batch_idx rs (streamStep cfg depth batch_idx r st)

/-- The `for batch_idx in range(0, len(urls_to_crawl), batch_size)`
loop; the cap check before each batch breaks out of the batch loop.
`fuel` bounds the iteration count (`urls.length + 1` suffices since
`batch_idx` advances by `batch_size ≥ 1`). -/
def batchLoop (cfg : CrawlCfg) (depth : Nat) (urls_to_crawl : List String) :
    Nat → Nat → CrawlState → CrawlState
  | 0, _, st => st
  | fuel + 1, batch_idx, st =>
      if batch_idx < urls_to_crawl.length then
        if 0 < cfg.max_pages ∧ cfg.max_pages ≤ (st.results.length : Int) then st
        else
          batchLoop cfg depth urls_to_crawl fuel (batch_idx + cfg.batch_size)
            (streamLoop cfg depth batch_idx
              (cfg.crawl_many depth batch_idx
                ((urls_to_crawl.drop batch_idx).take cfg.batch_size))
              st)
      else st

/-- The `for depth in range(max_depth)` loop: compute the unvisited
frontier, stop on an empty frontier or a reached cap, otherwise run the
batches with a fresh `next_level_urls` set and descend with it. -/
def depthLoop (cfg : CrawlCfg) :
    Nat → Nat → List String → CrawlState → CrawlState
  | 0, _, _, st => st
  | rem + 1, depth, current_urls, st =>
      if (current_urls.filter (fun u => decide (u ∉ st.visited))).isEmpty then st
      else if 0 < cfg.max_pages ∧ cfg.max_pages ≤ (st.results.length : Int) then st
      else
        depthLoop cfg rem (depth + 1)
          (batchLoop cfg depth (current_urls.filter (fun u => decide (u ∉ st.visited)))
            ((current_urls.filter (fun u => decide (u ∉ st.visited))).length + 1) 0
            (CrawlState.mk st.visited st.results st.total_processed
              st.total_discovered [])).next_level
          (batchLoop cfg depth (current_urls.filter (fun u => decide (u ∉ st.visited)))
            ((current_urls.filter (fun u => decide (u ∉ st.visited))).length + 1) 0
            (CrawlState.mk st.visited st.results st.total_processed
              st.total_discovered []))

/-- `crawl_recursive_with_progress` (environment batch size entering as
`max(1, env_batch_size)`): seeds are defragmented into the initial
frontier set, seed domains are extracted, and the depth loop runs from
an empty state. -/
def crawl_recursive_with_progress
    (crawl_many : Nat → Nat → List String → List CrawlResult)
    (urlPath : String → String) (extract_title : String → Option String)
    (seed_urls : List String) (max_depth : Nat) (max_pages : Int)
    (same_domain_only include_links : Bool) (env_batch_size : Nat) :
    List PageResult :=
  (depthLoop
    (CrawlCfg.mk crawl_many urlPath extract_title max_depth max_pages
      same_domain_only include_links (max 1 env_batch_size)
      (seed_urls.foldl (fun acc u => setInsert acc (domainOf (defragUrl u))) []))
    max_depth 0
    (seed_urls.foldl (fun acc u => setInsert acc (defragUrl u)) [])
    (CrawlState.mk [] [] 0
      (seed_urls.foldl (fun acc u => setInsert acc (defragUrl u)) []).length
      [])).results

/-- One stream step appends at most one page. -/
lemma streamStep_results_le (cfg : CrawlCfg) (d b : Nat) (r : CrawlResult)
    (st : CrawlState) :
    (streamStep cfg d b r st).results.length ≤ st.results.length + 1 := by
  unfold streamStep
  by_cases hskip : r.success = false ∨ r.markdown = none
  · rw [if_pos hskip]; simp
  · rw [if_neg hskip]
    match hmd : r.markdown with
    | none => simp
    | some md => simp

/-- The stream loop keeps `len(results) ≤ max_pages`: it breaks as soon
as the cap is reached and otherwise appends into strict slack. -/
lemma streamLoop_cap (cfg : CrawlCfg) (d b : Nat) (h0 : 0 < cfg.max_pages) :
    ∀ (rs : List CrawlResult) (st : CrawlState),
      (st.results.length : Int) ≤ cfg.max_pages →
      ((streamLoop cfg d b rs st).results.length : Int) ≤ cfg.max_pages := by
  intro rs
  induction rs with
  | nil => intro st hst; exact hst
  | cons r rs ih =>
      intro st hst
      rw [streamLoop]
      by_cases hcap : 0 < cfg.max_pages ∧ cfg.max_pages ≤ (st.results.length : Int)
      · rw [if_pos hcap]; exact hst
      · rw [if_neg hcap]
        apply ih
        have hlt : (st.results.length : Int) < cfg.max_pages := by
          rcases not_and_or.mp hcap with h | h
          · exact absurd h0 h
          · omega
        have hstep := streamStep_results_le cfg d b r st
        omega

/-- The batch loop preserves the cap (checked again before each batch). -/
lemma batchLoop_cap (cfg : CrawlCfg) (d : Nat) (urls : List String)
    (h0 : 0 < cfg.max_pages) :
    ∀ (fuel bidx : Nat) (st : CrawlState),
      (st.results.length : Int) ≤ cfg.max_pages →
      ((batchLoop cfg d urls fuel bidx st).results.length : Int) ≤ cfg.max_pages := by
  intro fuel
  induction fuel with
  | zero => intro bidx st hst; exact hst
  | succ fuel ih =>
      intro bidx st hst
      rw [batchLoop]
      by_cases hb : bidx < urls.length
      · rw [if_pos hb]
        by_cases hcap : 0 < cfg.max_pages ∧ cfg.max_pages ≤ (st.results.length : Int)
        · rw [if_pos hcap]; exact hst
        · rw [if_neg hcap]
          exact ih _ _ (streamLoop_cap cfg d bidx h0 _ st hst)
      · rw [if_neg hb]; exact hst

/-- The depth loop preserves the cap. -/
lemma depthLoop_cap (cfg : CrawlCfg) (h0 : 0 < cfg.max_pages) :
    ∀ (rem depth : Nat) (current : List String) (st : CrawlState),
      (st.results.length : Int) ≤ cfg.max_pages →
      ((depthLoop cfg rem depth current st).results.length : Int) ≤ cfg.max_pages := by
  intro rem
  induction rem with
  | zero => intro depth current st hst; exact hst
  | succ rem ih =>
      intro depth current st hst
      rw [depthLoop]
      by_cases hempty : (current.filter (fun u => decide (u ∉ st.visited))).isEmpty
      · rw [if_pos hempty]; exact hst
      · rw [if_neg hempty]
        by_cases hcap : 0 < cfg.max_pages ∧ cfg.max_pages ≤ (st.results.length : Int)
        · rw [if_pos hcap]; exact hst
        · rw [if_neg hcap]
          exact ih _ _ _ (batchLoop_cap cfg depth _ h0 _ 0 _ hst)

/-- C9: with `max_pages > 0`, `crawl_recursive_with_progress` returns
at most `max_pages` PageResults — the cap `max_pages > 0 and
len(results) >= max_pages` is re-checked before each depth, before each
batch, and before appending each streamed result, so `len(results)`
never exceeds `max_pages`; this holds for every crawler stream, seed
list, depth bound, domain/link configuration and environment batch
size. -/
theorem crawl_recursive_max_pages
    (crawl_many : Nat → Nat → List String → List CrawlResult)
    (urlPath : String → String) (extract_title : String → Option String)
    (seed_urls : List String) (max_depth : Nat) (max_pages : Int)
    (same_domain_only include_links : Bool) (env_batch_size : Nat)
    (hmp : 0 < max_pages) :
    ((crawl_recursive_with_progress crawl_many urlPath extract_title seed_urls
        max_depth max_pages same_domain_only include_links
        env_batch_size).length : Int) ≤ max_pages := by
  unfold crawl_recursive_with_progress
  exact depthLoop_cap _ hmp _ _ _ _ (by simp; omega)

theorem crawl_recursive_max_pages_witness :
    ((crawl_recursive_with_progress
        (fun _ _ urls => urls.map (fun u =>
          CrawlResult.mk u true (some (MarkdownPayload.mk none "hello world")) "" []))
        (fun _ => "") (fun _ => none)
        ["http://a", "http://b"] 1 1 true true 50).length : Int) ≤ 1 :=
  crawl_recursive_max_pages
    (fun _ _ urls => urls.map (fun u =>
      CrawlResult.mk u true (some (MarkdownPayload.mk none "hello world")) "" []))
    (fun _ => "") (fun _ => none)
    ["http://a", "http://b"] 1 1 true true 50 (by decide)
